import Mathlib

/-!
# Bounded-buffer producer/consumer programs (lab0/level_a, lab0/level_b)

A shallow embedding of the two semaphore-synchronised producer/consumer
programs.  The shared memory (buffer, *count and the three POSIX semaphores)
is a record, every worker process has a program counter and its local
variables, and an execution is a list of scheduling choices run through a
step function.  Both programs share the worker bodies; they differ in the
loop bound (10 against 5) and in the number of worker processes.

Modelling conventions: every statement of a worker is one atomic step; the
calls to sleep only delay a worker and are therefore covered by the arbitrary
interleaving; sem_wait either returns after decrementing or blocks (an
interrupted sem_wait is not modelled); of the printed lines only the four
reports on the buffer and on the slot semaphores are kept, as trace events.
The ints of the program stay far from their bounds (items are below 100, *count
moves between 0 and BUFFER_SIZE, loop counters stay below 11), so they are
unbounded integers here.
-/

namespace AdvancedOS

/-! ## Constants -/

/-- Capacity of the shared buffer: the macro BUFFER_SIZE of both programs. -/
def BUFFER_SIZE : Nat := 4

/-- Number of producer processes forked by level_b.c. -/
def NUM_PRODUCERS : Nat := 2

/-- Number of consumer processes forked by level_b.c. -/
def NUM_CONSUMERS : Nat := 2

/-- Loop bound of the worker loops of level_b.c, the literal in `while (i < 5)`. -/
def LEVEL_B_ITEMS : Nat := 5

/-- Loop bound of the worker loops of level_a.c, the literal in `while (i < 10)`. -/
def LEVEL_A_ITEMS : Nat := 10

/-! ## Shared memory -/

/-- The shared objects set up by main.  The field buffer gives the int cell at
each C index relative to the pointer buffer (cells 0 .. BUFFER_SIZE - 1 are the
mapped array), count is the int behind the pointer count, and the three
semaphores are represented by their non-negative values. -/
structure Shared where
  buffer : Int → Int
  count : Int
  empty_slots : Nat
  filled_slots : Nat
  mutex : Nat

/-- The producer statement `buffer[(*count)++] = item;`: the cell at the old
value of *count receives the item and *count is incremented.  The statement
contains no test of *count. -/
def push (sh : Shared) (item : Int) : Shared :=
  { sh with
    buffer := fun k => if k = sh.count then item else sh.buffer k
    count := sh.count + 1 }

/-- The consumer statement `item = buffer[--(*count)];`: *count is decremented
first and the cell at the new value is read.  The statement contains no test
of *count.  The result is the item read and the memory afterwards. -/
def pop (sh : Shared) : Int × Shared :=
  (sh.buffer (sh.count - 1), { sh with count := sh.count - 1 })

/-- The call sem_wait on a semaphore of value v: it returns with the value
decremented when v is positive and otherwise does not return (none: the caller
stays blocked). -/
def sem_wait (v : Nat) : Option Nat :=
  if 0 < v then some (v - 1) else none

/-- The call sem_post on a semaphore of value v. -/
def sem_post (v : Nat) : Nat := v + 1

/-- The valid entries of the buffer, slots 0 .. *count - 1 in index order. -/
def contents (sh : Shared) : List Int :=
  (List.range sh.count.toNat).map (fun (k : Nat) => sh.buffer (k : Int))

/-! ## Trace events

The events are the four reports the workers print about the buffer and the slot
semaphores: "produced", "Signaled filled slot", "consumed", "Signaled empty
slot".  The remaining progress messages are not recorded. -/

/-- An observable action of a worker, with the id the worker prints. -/
inductive Event where
  | produced (id : Nat) (item : Int)
  | signaledFilled (id : Nat)
  | consumed (id : Nat) (item : Int)
  | signaledEmpty (id : Nat)
  deriving DecidableEq

/-! ## Producer -/

/-- Program points of the function producer: the loop test together with the
item generation, the five synchronisation and buffer statements, the loop
increment, and the point after the loop. -/
inductive ProducerPC where
  | loopTest
  | waitEmpty
  | waitMutex
  | write
  | postMutex
  | postFilled
  | incr
  | done
  deriving DecidableEq

/-- Local variables of one producer process. -/
structure Producer where
  pc : ProducerPC
  i : Nat
  item : Int
  deriving DecidableEq

/-- One statement of producer, for the loop bound K, the printed id and the
value r returned by rand() (used at the loop test only).  The result none means
that the process cannot move: it is blocked in sem_wait or has left the loop. -/
def producerStep (K id r : Nat) (sh : Shared) (p : Producer) :
    Option (Shared × Producer × List Event) :=
  match p.pc with
  | .loopTest =>
    if p.i < K then
      some (sh, { p with pc := .waitEmpty, item := ((r % 100 : Nat) : Int) }, [])
    else
      some (sh, { p with pc := .done }, [])
  | .waitEmpty =>
    match sem_wait sh.empty_slots with
    | some v => some ({ sh with empty_slots := v }, { p with pc := .waitMutex }, [])
    | none => none
  | .waitMutex =>
    match sem_wait sh.mutex with
    | some v => some ({ sh with mutex := v }, { p with pc := .write }, [])
    | none => none
  | .write =>
    some (push sh p.item, { p with pc := .postMutex }, [Event.produced id p.item])
  | .postMutex =>
    some ({ sh with mutex := sem_post sh.mutex }, { p with pc := .postFilled }, [])
  | .postFilled =>
    some ({ sh with filled_slots := sem_post sh.filled_slots }, { p with pc := .incr },
      [Event.signaledFilled id])
  | .incr => some (sh, { p with pc := .loopTest, i := p.i + 1 }, [])
  | .done => none

/-! ## Consumer -/

/-- Program points of the function consumer. -/
inductive ConsumerPC where
  | loopTest
  | waitFilled
  | waitMutex
  | read
  | postMutex
  | postEmpty
  | incr
  | done
  deriving DecidableEq

/-- Local variables of one consumer process. -/
structure Consumer where
  pc : ConsumerPC
  i : Nat
  item : Int
  deriving DecidableEq

/-- One statement of consumer, for the loop bound K and the printed id. -/
def consumerStep (K id : Nat) (sh : Shared) (c : Consumer) :
    Option (Shared × Consumer × List Event) :=
  match c.pc with
  | .loopTest =>
    if c.i < K then some (sh, { c with pc := .waitFilled }, [])
    else some (sh, { c with pc := .done }, [])
  | .waitFilled =>
    match sem_wait sh.filled_slots with
    | some v => some ({ sh with filled_slots := v }, { c with pc := .waitMutex }, [])
    | none => none
  | .waitMutex =>
    match sem_wait sh.mutex with
    | some v => some ({ sh with mutex := v }, { c with pc := .read }, [])
    | none => none
  | .read =>
    some ((pop sh).2, { c with pc := .postMutex, item := (pop sh).1 },
      [Event.consumed id (pop sh).1])
  | .postMutex =>
    some ({ sh with mutex := sem_post sh.mutex }, { c with pc := .postEmpty }, [])
  | .postEmpty =>
    some ({ sh with empty_slots := sem_post sh.empty_slots }, { c with pc := .incr },
      [Event.signaledEmpty id])
  | .incr => some (sh, { c with pc := .loopTest, i := c.i + 1 }, [])
  | .done => none

/-! ## The concurrent system -/

/-- A global state: the shared memory and the local state of every worker. -/
structure State where
  sh : Shared
  producers : List Producer
  consumers : List Consumer

/-- A scheduling choice: which worker executes its next statement; for a
producer also the value rand() returns should the statement call it. -/
inductive Label where
  | producer (k : Nat) (r : Nat)
  | consumer (k : Nat)
  deriving DecidableEq

/-- One step of the system: the chosen worker executes one statement.  Worker
number k (counted from 0 in fork order) prints the id k + 1. -/
def step (K : Nat) (s : State) : Label → Option (State × List Event)
  | .producer k r =>
    match s.producers[k]? with
    | none => none
    | some p =>
      match producerStep K (k + 1) r s.sh p with
      | none => none
      | some (sh', p', evs) =>
        some ({ s with sh := sh', producers := s.producers.set k p' }, evs)
  | .consumer k =>
    match s.consumers[k]? with
    | none => none
    | some c =>
      match consumerStep K (k + 1) s.sh c with
      | none => none
      | some (sh', c', evs) =>
        some ({ s with sh := sh', consumers := s.consumers.set k c' }, evs)

/-- An execution: the steps chosen by a list of labels, in order, with the
events they emit.  The result is none when some chosen step is not enabled. -/
def run (K : Nat) (s : State) : List Label → Option (State × List Event)
  | [] => some (s, [])
  | l :: ls =>
    match step K s l with
    | none => none
    | some (s1, e1) =>
      match run K s1 ls with
      | none => none
      | some (s2, e2) => some (s2, e1 ++ e2)

/-- The state main sets up before the workers run: zero-filled anonymous
mappings, `*count = 0`, the semaphores opened with the values BUFFER_SIZE, 0
and 1, and N producers and M consumers at the head of their loops with
`i = 0`. -/
def initState (N M : Nat) : State where
  sh := { buffer := fun _ => 0, count := 0, empty_slots := BUFFER_SIZE,
          filled_slots := 0, mutex := 1 }
  producers := List.replicate N { pc := .loopTest, i := 0, item := 0 }
  consumers := List.replicate M { pc := .loopTest, i := 0, item := 0 }

/-- Initial state of level_b.c. -/
def levelB_init : State := initState NUM_PRODUCERS NUM_CONSUMERS

/-- Initial state of level_a.c: one producer (the child) and one consumer (the
parent). -/
def levelA_init : State := initState 1 1

/-- States reachable from s0 under some interleaving and some rand() values. -/
def Reachable (K : Nat) (s0 s : State) : Prop :=
  ∃ ls evs, run K s0 ls = some (s, evs)

/-- Every worker has left its loop. -/
def allDone (s : State) : Prop :=
  (∀ p ∈ s.producers, p.pc = ProducerPC.done) ∧ (∀ c ∈ s.consumers, c.pc = ConsumerPC.done)

/-- The items written by producers, in trace order. -/
def producedItems : List Event → List Int
  | [] => []
  | Event.produced _ x :: es => x :: producedItems es
  | _ :: es => producedItems es

/-- The items read by consumers, in trace order. -/
def consumedItems : List Event → List Int
  | [] => []
  | Event.consumed _ x :: es => x :: consumedItems es
  | _ :: es => consumedItems es

/-! ## Bookkeeping functions for the invariants -/

/-- Sum of a natural-number weight over a list of workers. -/
def total {α : Type} (f : α → Nat) (l : List α) : Nat := (l.map f).sum

/-- Producer holds the mutex: it is after `sem_wait(mutex)` and before
`sem_post(mutex)`. -/
def Producer.inCS (p : Producer) : Nat :=
  if p.pc = .write ∨ p.pc = .postMutex then 1 else 0

/-- Producer has taken an empty slot and has not yet written its item. -/
def Producer.holdsEmpty (p : Producer) : Nat :=
  if p.pc = .waitMutex ∨ p.pc = .write then 1 else 0

/-- Producer has written its item and has not yet posted filled_slots. -/
def Producer.owesFilled (p : Producer) : Nat :=
  if p.pc = .postMutex ∨ p.pc = .postFilled then 1 else 0

/-- Number of writes the producer has performed. -/
def Producer.pushes (p : Producer) : Nat :=
  p.i + (if p.pc = .postMutex ∨ p.pc = .postFilled ∨ p.pc = .incr then 1 else 0)

/-- Local consistency of a producer with the loop bound K. -/
def Producer.wf (K : Nat) (p : Producer) : Prop :=
  match p.pc with
  | .loopTest => p.i ≤ K
  | .done => p.i = K
  | _ => p.i < K

/-- Number of statements the producer still has to execute. -/
def Producer.remaining (K : Nat) (p : Producer) : Nat :=
  match p.pc with
  | .loopTest => 7 * (K - p.i) + 1
  | .waitEmpty => 7 * (K - p.i)
  | .waitMutex => 7 * (K - p.i) - 1
  | .write => 7 * (K - p.i) - 2
  | .postMutex => 7 * (K - p.i) - 3
  | .postFilled => 7 * (K - p.i) - 4
  | .incr => 7 * (K - p.i) - 5
  | .done => 0

/-- Consumer holds the mutex. -/
def Consumer.inCS (c : Consumer) : Nat :=
  if c.pc = .read ∨ c.pc = .postMutex then 1 else 0

/-- Consumer has taken a filled slot and has not yet read its item. -/
def Consumer.holdsFilled (c : Consumer) : Nat :=
  if c.pc = .waitMutex ∨ c.pc = .read then 1 else 0

/-- Consumer has read its item and has not yet posted empty_slots. -/
def Consumer.owesEmpty (c : Consumer) : Nat :=
  if c.pc = .postMutex ∨ c.pc = .postEmpty then 1 else 0

/-- Number of reads the consumer has performed. -/
def Consumer.pops (c : Consumer) : Nat :=
  c.i + (if c.pc = .postMutex ∨ c.pc = .postEmpty ∨ c.pc = .incr then 1 else 0)

/-- Local consistency of a consumer with the loop bound K. -/
def Consumer.wf (K : Nat) (c : Consumer) : Prop :=
  match c.pc with
  | .loopTest => c.i ≤ K
  | .done => c.i = K
  | _ => c.i < K

/-- Number of statements the consumer still has to execute. -/
def Consumer.remaining (K : Nat) (c : Consumer) : Nat :=
  match c.pc with
  | .loopTest => 7 * (K - c.i) + 1
  | .waitFilled => 7 * (K - c.i)
  | .waitMutex => 7 * (K - c.i) - 1
  | .read => 7 * (K - c.i) - 2
  | .postMutex => 7 * (K - c.i) - 3
  | .postEmpty => 7 * (K - c.i) - 4
  | .incr => 7 * (K - c.i) - 5
  | .done => 0

/-- Number of workers between their `sem_wait(mutex)` and `sem_post(mutex)`. -/
def inCriticalSection (s : State) : Nat :=
  total Producer.inCS s.producers + total Consumer.inCS s.consumers

/-- Number of workers between their first sem_wait and their last sem_post of
the current iteration. -/
def inProtocol (s : State) : Nat :=
  total Producer.holdsEmpty s.producers + total Producer.owesFilled s.producers
    + total Consumer.holdsFilled s.consumers + total Consumer.owesEmpty s.consumers

/-- Number of statements the workers still have to execute. -/
def remainingSteps (K : Nat) (s : State) : Nat :=
  total (Producer.remaining K) s.producers + total (Consumer.remaining K) s.consumers

/-- The protocol invariant: the mutex is free exactly when no worker is in the
critical section, the two slot semaphores account for *count and the workers
in transit, *count is the number of writes minus the number of reads, and all
loop counters are within bounds. -/
structure Inv (K : Nat) (s : State) : Prop where
  mutex_eq : s.sh.mutex + inCriticalSection s = 1
  filled_eq : s.sh.count = (s.sh.filled_slots : Int) + (total Producer.owesFilled s.producers : Int)
      + (total Consumer.holdsFilled s.consumers : Int)
  empty_eq : (s.sh.empty_slots : Int) + (total Producer.holdsEmpty s.producers : Int) + s.sh.count
      + (total Consumer.owesEmpty s.consumers : Int) = (BUFFER_SIZE : Int)
  count_eq : s.sh.count + (total Consumer.pops s.consumers : Int)
      = (total Producer.pushes s.producers : Int)
  wfP : ∀ p ∈ s.producers, p.wf K
  wfC : ∀ c ∈ s.consumers, c.wf K

/-! ## Reference semantics of last-in-first-out consumption -/

/-- Specification of last-in-first-out consumption, following the words of the
spec: the list holds the items produced and not yet consumed, oldest first; a
produced item is appended, and a consumed item has to be the most recently
produced item still in the list, which is then removed.  The result is none
when some consumed item is not that item, and otherwise the list at the end. -/
def lifoReplay : List Int → List Event → Option (List Int)
  | st, [] => some st
  | st, Event.produced _ x :: es => lifoReplay (st ++ [x]) es
  | st, Event.consumed _ x :: es =>
    if st.getLast? = some x then lifoReplay st.dropLast es else none
  | st, _ :: es => lifoReplay st es

/-! ## Sample executions -/

/-- Producer 1 runs alone up to its write: loop test with rand() = 142, then
`sem_wait(empty_slots)`, `sem_wait(mutex)` and the buffer write. -/
def firstWrite : List Label :=
  [.producer 0 142, .producer 0 0, .producer 0 0, .producer 0 0]

/-- The state after the execution firstWrite of level_b.c. -/
def afterFirstWrite : State where
  sh := { buffer := fun k => if k = 0 then 42 else 0, count := 1, empty_slots := 3,
          filled_slots := 0, mutex := 0 }
  producers := [{ pc := .postMutex, i := 0, item := 42 }, { pc := .loopTest, i := 0, item := 0 }]
  consumers := [{ pc := .loopTest, i := 0, item := 0 }, { pc := .loopTest, i := 0, item := 0 }]

/-- The state of level_b.c in which producer 1 holds the mutex and is at its
buffer write, after its loop test with rand() = 142 and its two sem_wait
calls. -/
def beforeFirstWrite : State where
  sh := { buffer := fun _ => 0, count := 0, empty_slots := 3, filled_slots := 0, mutex := 0 }
  producers := [{ pc := .write, i := 0, item := 42 }, { pc := .loopTest, i := 0, item := 0 }]
  consumers := [{ pc := .loopTest, i := 0, item := 0 }, { pc := .loopTest, i := 0, item := 0 }]

/-- The state of level_b.c after producer 1 has passed its loop test and its
`sem_wait(empty_slots)` and no other worker has moved. -/
def afterWaitEmpty : State where
  sh := { buffer := fun _ => 0, count := 0, empty_slots := 3, filled_slots := 0, mutex := 1 }
  producers := [{ pc := .waitMutex, i := 0, item := 42 }, { pc := .loopTest, i := 0, item := 0 }]
  consumers := [{ pc := .loopTest, i := 0, item := 0 }, { pc := .loopTest, i := 0, item := 0 }]

/-! ## Sequences of buffer operations -/

/-- A buffer operation: the producer statement with its item, or the consumer
statement. -/
inductive BufferOp where
  | push (item : Int)
  | pop
  deriving DecidableEq

/-- The memory after a sequence of buffer statements. -/
def applyOps (sh : Shared) : List BufferOp → Shared
  | [] => sh
  | .push x :: ops => applyOps (push sh x) ops
  | .pop :: ops => applyOps (pop sh).2 ops

/-- A sequence of operations stays within the contract when started at
occupancy n: no push at occupancy BUFFER_SIZE and no pop at occupancy 0. -/
def inContract (n : Nat) : List BufferOp → Bool
  | [] => true
  | .push _ :: ops => decide (n < BUFFER_SIZE) && inContract (n + 1) ops
  | .pop :: ops => decide (0 < n) && inContract (n - 1) ops

/-- Specification, following the words of the spec: the items pushed and not yet
popped after a sequence of operations, oldest first, where push appends to the
logical end and pop removes from the logical end. -/
def pending (st : List Int) : List BufferOp → List Int
  | [] => st
  | .push x :: ops => pending (st ++ [x]) ops
  | .pop :: ops => pending st.dropLast ops

/-- A memory whose buffer is full: *count equals BUFFER_SIZE. -/
def fullBuffer : Shared :=
  { buffer := fun k => k + 10, count := 4, empty_slots := 0, filled_slots := 4, mutex := 1 }

/-- A memory whose buffer is empty: *count is 0. -/
def emptyBuffer : Shared :=
  { buffer := fun _ => 0, count := 0, empty_slots := 4, filled_slots := 0, mutex := 1 }

/-! ## The coordinator: main of level_b.c -/

/-- Outcomes of the creation calls of main: the two mmap calls, the three
sem_open calls, and the fork calls numbered from 0 in launch order.  The value
true stands for success. -/
structure Creation where
  mmapBuffer : Bool
  mmapCount : Bool
  semEmpty : Bool
  semFilled : Bool
  semMutex : Bool
  fork : Nat → Bool

/-- A worker process, with the id passed to its function. -/
inductive Worker where
  | producer (id : Nat)
  | consumer (id : Nat)
  deriving DecidableEq

/-- How the parent process ends: by exit or return with a status, by the fault
of a store through an invalid pointer, or not at all: it stays in a call of
`wait(NULL)` because some child never terminates. -/
inductive Ending where
  | exited (status : Nat)
  | faulted
  | blocked
  deriving DecidableEq

/-- Result of main in the parent: how it ended and which workers it started. -/
structure MainResult where
  ending : Ending
  started : List Worker
  deriving DecidableEq

/-- The loop `for (i = 0; i < NUM_PRODUCERS; i++)` of main, seen from the
parent, with todo iterations left at index i: a successful fork starts producer
i + 1 and the loop goes on, a failed fork leads to `exit(1)`.  The result is
error with the workers started so far on exit, and ok with them when the loop
has run to its end. -/
def forkProducers (o : Creation) : Nat → Nat → List Worker → Except (List Worker) (List Worker)
  | 0, _, started => .ok started
  | todo + 1, i, started =>
    if o.fork i then forkProducers o todo (i + 1) (started ++ [Worker.producer (i + 1)])
    else .error started

/-- The loop `for (i = 0; i < NUM_CONSUMERS; i++)` of main; its fork calls
follow the NUM_PRODUCERS calls of the first loop. -/
def forkConsumers (o : Creation) : Nat → Nat → List Worker → Except (List Worker) (List Worker)
  | 0, _, started => .ok started
  | todo + 1, i, started =>
    if o.fork (NUM_PRODUCERS + i) then
      forkConsumers o todo (i + 1) (started ++ [Worker.consumer (i + 1)])
    else .error started

/-- The function main of level_b.c in the parent process.  The results of mmap
and sem_open are never tested.  The statement `*count = 0` stores through the
pointer of the second mmap, so a failed second mmap ends main by a fault before
any fork.  Each fork is tested: on failure main calls `exit(1)`.  After both
loops main calls `wait(NULL)` once per child; the argument childrenExit tells
whether every child terminates.  It is not decided by main: workers that were
handed a failed semaphore or mapping can die or block for ever.  When every child
terminates main cleans up and returns 0, otherwise it never leaves the waiting
loop. -/
def main (o : Creation) (childrenExit : Bool) : MainResult :=
  if o.mmapCount = false then { ending := .faulted, started := [] }
  else
    match forkProducers o NUM_PRODUCERS 0 [] with
    | .error started => { ending := .exited 1, started := started }
    | .ok started =>
      match forkConsumers o NUM_CONSUMERS 0 started with
      | .error started' => { ending := .exited 1, started := started' }
      | .ok started' =>
        if childrenExit then { ending := .exited 0, started := started' }
        else { ending := .blocked, started := started' }

/-- Every creation call of main succeeds. -/
def Creation.allSucceed (o : Creation) : Bool :=
  o.mmapBuffer && o.mmapCount && o.semEmpty && o.semFilled && o.semMutex
    && (List.range (NUM_PRODUCERS + NUM_CONSUMERS)).all o.fork

/-- The complete pool in launch order. -/
def fullPool : List Worker :=
  [.producer 1, .producer 2, .consumer 1, .consumer 2]

/-- Outcomes in which only the second fork fails. -/
def secondForkFails : Creation :=
  { mmapBuffer := true, mmapCount := true, semEmpty := true, semFilled := true,
    semMutex := true, fork := fun k => decide (k ≠ 1) }

/-- Outcomes in which only `sem_open("/mutex", ...)` fails. -/
def mutexOpenFails : Creation :=
  { mmapBuffer := true, mmapCount := true, semEmpty := true, semFilled := true,
    semMutex := false, fork := fun _ => true }

/-- Outcomes in which only the first fork fails. -/
def firstForkFails : Creation :=
  { mmapBuffer := true, mmapCount := true, semEmpty := true, semFilled := true,
    semMutex := true, fork := fun k => decide (k ≠ 0) }

/-- Outcomes in which only the third fork, the one for consumer 1, fails. -/
def thirdForkFails : Creation :=
  { mmapBuffer := true, mmapCount := true, semEmpty := true, semFilled := true,
    semMutex := true, fork := fun k => decide (k ≠ 2) }

/-! ## Complete sample executions -/

/-- The seven statements of one loop iteration of the worker chosen by l. -/
def iteration (l : Label) : List Label := List.replicate 7 l

/-- A complete execution of level_b.c.  The producers alternate and fill the
buffer with the items 1, 2, 3, 4, the consumers alternate and empty it, the same
happens with the items 5, 6, 7, 8, then with 9 and 10, and at the end every
worker leaves its loop. -/
def levelB_schedule : List Label :=
  iteration (.producer 0 101) ++ iteration (.producer 1 202)
    ++ iteration (.producer 0 103) ++ iteration (.producer 1 204)
    ++ iteration (.consumer 0) ++ iteration (.consumer 1)
    ++ iteration (.consumer 0) ++ iteration (.consumer 1)
    ++ iteration (.producer 0 105) ++ iteration (.producer 1 206)
    ++ iteration (.producer 0 107) ++ iteration (.producer 1 208)
    ++ iteration (.consumer 0) ++ iteration (.consumer 1)
    ++ iteration (.consumer 0) ++ iteration (.consumer 1)
    ++ iteration (.producer 0 109) ++ iteration (.producer 1 210)
    ++ iteration (.consumer 0) ++ iteration (.consumer 1)
    ++ [.producer 0 0, .producer 1 0, .consumer 0, .consumer 1]

/-- Final state and trace of the execution levelB_schedule. -/
def levelB_outcome : State × List Event :=
  (run LEVEL_B_ITEMS levelB_init levelB_schedule).getD (levelB_init, [])

/-- A complete execution of level_a.c: the producer fills the buffer with the
items 1, 2, 3, 4, the consumer empties it, the same happens with 5, 6, 7, 8, then
with 9 and 10, and both leave their loops. -/
def levelA_schedule : List Label :=
  iteration (.producer 0 101) ++ iteration (.producer 0 102)
    ++ iteration (.producer 0 103) ++ iteration (.producer 0 104)
    ++ iteration (.consumer 0) ++ iteration (.consumer 0)
    ++ iteration (.consumer 0) ++ iteration (.consumer 0)
    ++ iteration (.producer 0 105) ++ iteration (.producer 0 106)
    ++ iteration (.producer 0 107) ++ iteration (.producer 0 108)
    ++ iteration (.consumer 0) ++ iteration (.consumer 0)
    ++ iteration (.consumer 0) ++ iteration (.consumer 0)
    ++ iteration (.producer 0 109) ++ iteration (.producer 0 110)
    ++ iteration (.consumer 0) ++ iteration (.consumer 0)
    ++ [.producer 0 0, .consumer 0]

/-- Final state and trace of the execution levelA_schedule. -/
def levelA_outcome : State × List Event :=
  (run LEVEL_A_ITEMS levelA_init levelA_schedule).getD (levelA_init, [])

/-- An execution of level_b.c that fills the buffer: the producers alternate
through four iterations, then producer 1 passes its loop test and stands at
`sem_wait(empty_slots)`. -/
def fillSchedule : List Label :=
  iteration (.producer 0 101) ++ iteration (.producer 1 202)
    ++ iteration (.producer 0 103) ++ iteration (.producer 1 204)
    ++ [.producer 0 105]

/-- State and trace after the execution fillSchedule. -/
def levelB_full : State × List Event :=
  (run LEVEL_B_ITEMS levelB_init fillSchedule).getD (levelB_init, [])

/-! ## Basic facts -/

theorem total_set {α : Type} (f : α → Nat) (l : List α) (k : Nat) (a b : α)
    (h : l[k]? = some a) : total f (l.set k b) + f a = total f l + f b := by
  induction l generalizing k with
  | nil => simp at h
  | cons x xs ih =>
    cases k with
    | zero =>
      simp at h
      subst h
      simp [total]
      omega
    | succ n =>
      simp at h
      have := ih n h
      simp [total] at this ⊢
      omega

theorem total_eq_zero {α : Type} (f : α → Nat) (l : List α) (h : ∀ x ∈ l, f x = 0) :
    total f l = 0 := by
  induction l with
  | nil => rfl
  | cons x xs ih =>
    have h1 := h x (by simp)
    have h2 := ih (fun y hy => h y (by simp [hy]))
    simp [total] at h2 ⊢
    omega

theorem total_le {α : Type} (f : α → Nat) (l : List α) (K : Nat) (h : ∀ x ∈ l, f x ≤ K) :
    total f l ≤ l.length * K := by
  induction l with
  | nil => simp [total]
  | cons x xs ih =>
    have h1 := h x (by simp)
    have h2 := ih (fun y hy => h y (by simp [hy]))
    simp [total, Nat.succ_mul] at h2 ⊢
    omega

theorem total_eq {α : Type} (f : α → Nat) (l : List α) (K : Nat) (h : ∀ x ∈ l, f x = K) :
    total f l = l.length * K := by
  induction l with
  | nil => simp [total]
  | cons x xs ih =>
    have h1 := h x (by simp)
    have h2 := ih (fun y hy => h y (by simp [hy]))
    simp [total, Nat.succ_mul] at h2 ⊢
    omega

theorem total_lt {α : Type} (f : α → Nat) (l : List α) (K : Nat) (h : ∀ x ∈ l, f x ≤ K)
    (a : α) (ha : a ∈ l) (hlt : f a < K) : total f l < l.length * K := by
  induction l with
  | nil => simp at ha
  | cons x xs ih =>
    have h1 := h x (by simp)
    have hxs : ∀ y ∈ xs, f y ≤ K := fun y hy => h y (by simp [hy])
    have h2 := total_le f xs K hxs
    simp only [List.mem_cons] at ha
    rcases ha with rfl | ha
    · simp [total, Nat.succ_mul] at h2 ⊢
      omega
    · have h3 := ih hxs ha
      simp [total, Nat.succ_mul] at h3 ⊢
      omega

theorem le_total {α : Type} (f : α → Nat) (l : List α) (a : α) (ha : a ∈ l) :
    f a ≤ total f l := by
  induction l with
  | nil => simp at ha
  | cons x xs ih =>
    simp only [List.mem_cons] at ha
    rcases ha with rfl | ha
    · simp [total]
    · have := ih ha
      simp [total] at this ⊢
      omega

theorem mem_of_getElem? {α : Type} (l : List α) (k : Nat) (a : α) (h : l[k]? = some a) :
    a ∈ l := by
  rw [List.getElem?_eq_some] at h
  obtain ⟨hk, rfl⟩ := h
  exact List.getElem_mem hk


/-! ## Effect of a single worker statement -/

theorem producerStep_effect {K id r : Nat} {sh sh' : Shared} {p p' : Producer}
    {evs : List Event} (h : producerStep K id r sh p = some (sh', p', evs)) :
    sh'.mutex + p'.inCS = sh.mutex + p.inCS ∧
    sh'.count + (sh.filled_slots : Int) + (p.owesFilled : Int)
      = sh.count + (sh'.filled_slots : Int) + (p'.owesFilled : Int) ∧
    (sh'.empty_slots : Int) + (p'.holdsEmpty : Int) + sh'.count
      = (sh.empty_slots : Int) + (p.holdsEmpty : Int) + sh.count ∧
    sh'.count + (p.pushes : Int) = sh.count + (p'.pushes : Int) ∧
    (p.wf K → p'.wf K) ∧
    (p.wf K → p'.remaining K + 1 = p.remaining K) := by
  obtain ⟨pc, i, item⟩ := p
  cases pc
  case loopTest =>
    simp only [producerStep] at h
    split at h <;> simp at h <;> obtain ⟨rfl, rfl, rfl⟩ := h <;>
      simp [Producer.inCS, Producer.owesFilled, Producer.holdsEmpty, Producer.pushes,
        Producer.wf, Producer.remaining] <;> omega
  case waitEmpty =>
    by_cases hv : 0 < sh.empty_slots <;> simp [producerStep, sem_wait, hv] at h
    obtain ⟨rfl, rfl, rfl⟩ := h
    simp [Producer.inCS, Producer.owesFilled, Producer.holdsEmpty, Producer.pushes,
        Producer.wf, Producer.remaining]
    omega
  case waitMutex =>
    by_cases hv : 0 < sh.mutex <;> simp [producerStep, sem_wait, hv] at h
    obtain ⟨rfl, rfl, rfl⟩ := h
    simp [Producer.inCS, Producer.owesFilled, Producer.holdsEmpty, Producer.pushes,
        Producer.wf, Producer.remaining]
    omega
  case done => simp [producerStep] at h
  all_goals
    simp [producerStep, sem_post, push] at h
    obtain ⟨rfl, rfl, rfl⟩ := h
    simp [Producer.inCS, Producer.owesFilled, Producer.holdsEmpty, Producer.pushes,
        Producer.wf, Producer.remaining]
    omega

theorem consumerStep_effect {K id : Nat} {sh sh' : Shared} {c c' : Consumer}
    {evs : List Event} (h : consumerStep K id sh c = some (sh', c', evs)) :
    sh'.mutex + c'.inCS = sh.mutex + c.inCS ∧
    sh'.count + (sh.filled_slots : Int) + (c.holdsFilled : Int)
      = sh.count + (sh'.filled_slots : Int) + (c'.holdsFilled : Int) ∧
    (sh'.empty_slots : Int) + (c'.owesEmpty : Int) + sh'.count
      = (sh.empty_slots : Int) + (c.owesEmpty : Int) + sh.count ∧
    sh'.count + (c'.pops : Int) = sh.count + (c.pops : Int) ∧
    (c.wf K → c'.wf K) ∧
    (c.wf K → c'.remaining K + 1 = c.remaining K) := by
  obtain ⟨pc, i, item⟩ := c
  cases pc
  case loopTest =>
    simp only [consumerStep] at h
    split at h <;> simp at h <;> obtain ⟨rfl, rfl, rfl⟩ := h <;>
      simp [Consumer.inCS, Consumer.owesEmpty, Consumer.holdsFilled, Consumer.pops,
        Consumer.wf, Consumer.remaining] <;> omega
  case waitFilled =>
    by_cases hv : 0 < sh.filled_slots <;> simp [consumerStep, sem_wait, hv] at h
    obtain ⟨rfl, rfl, rfl⟩ := h
    simp [Consumer.inCS, Consumer.owesEmpty, Consumer.holdsFilled, Consumer.pops,
        Consumer.wf, Consumer.remaining]
    omega
  case waitMutex =>
    by_cases hv : 0 < sh.mutex <;> simp [consumerStep, sem_wait, hv] at h
    obtain ⟨rfl, rfl, rfl⟩ := h
    simp [Consumer.inCS, Consumer.owesEmpty, Consumer.holdsFilled, Consumer.pops,
        Consumer.wf, Consumer.remaining]
    omega
  case done => simp [consumerStep] at h
  all_goals
    simp [consumerStep, sem_post, pop] at h
    obtain ⟨rfl, rfl, rfl⟩ := h
    simp [Consumer.inCS, Consumer.owesEmpty, Consumer.holdsFilled, Consumer.pops,
        Consumer.wf, Consumer.remaining]
    omega

/-! ## The buffer as a stack -/

theorem contents_push (sh : Shared) (x : Int) (h : 0 ≤ sh.count) :
    contents (push sh x) = contents sh ++ [x] := by
  have e : (sh.count + 1).toNat = sh.count.toNat + 1 := by omega
  simp only [contents, push, e, List.range_succ, List.map_append, List.map_cons, List.map_nil]
  have hc : ((sh.count.toNat : Nat) : Int) = sh.count := Int.toNat_of_nonneg h
  congr 1
  · apply List.map_congr_left
    intro k hk
    have hk' : k < sh.count.toNat := List.mem_range.mp hk
    have : (k : Int) ≠ sh.count := by omega
    simp [this]
  · simp [hc]

theorem contents_pop (sh : Shared) (h : 1 ≤ sh.count) :
    contents sh = contents (pop sh).2 ++ [(pop sh).1] := by
  have e : sh.count.toNat = (sh.count - 1).toNat + 1 := by omega
  have hc : (((sh.count - 1).toNat : Nat) : Int) = sh.count - 1 :=
    Int.toNat_of_nonneg (by omega)
  simp only [contents, pop]
  rw [e, List.range_succ, List.map_append]
  simp only [List.map_cons, List.map_nil, hc]

/-! ## Steps of the system -/

theorem step_producer {K : Nat} {s s' : State} {k r : Nat} {evs : List Event}
    (h : step K s (.producer k r) = some (s', evs)) :
    ∃ p sh' p', s.producers[k]? = some p ∧
      producerStep K (k + 1) r s.sh p = some (sh', p', evs) ∧
      s' = { s with sh := sh', producers := s.producers.set k p' } := by
  cases hp : s.producers[k]? with
  | none => simp [step, hp] at h
  | some p =>
    cases hq : producerStep K (k + 1) r s.sh p with
    | none => simp [step, hp, hq] at h
    | some t =>
      obtain ⟨sh', p', e⟩ := t
      simp [step, hp, hq] at h
      obtain ⟨rfl, rfl⟩ := h
      exact ⟨p, sh', p', rfl, hq, rfl⟩

theorem step_consumer {K : Nat} {s s' : State} {k : Nat} {evs : List Event}
    (h : step K s (.consumer k) = some (s', evs)) :
    ∃ c sh' c', s.consumers[k]? = some c ∧
      consumerStep K (k + 1) s.sh c = some (sh', c', evs) ∧
      s' = { s with sh := sh', consumers := s.consumers.set k c' } := by
  cases hp : s.consumers[k]? with
  | none => simp [step, hp] at h
  | some c =>
    cases hq : consumerStep K (k + 1) s.sh c with
    | none => simp [step, hp, hq] at h
    | some t =>
      obtain ⟨sh', c', e⟩ := t
      simp [step, hp, hq] at h
      obtain ⟨rfl, rfl⟩ := h
      exact ⟨c, sh', c', rfl, hq, rfl⟩

theorem step_inv {K : Nat} {s s' : State} {l : Label} {evs : List Event}
    (hI : Inv K s) (h : step K s l = some (s', evs)) :
    Inv K s' ∧ remainingSteps K s' + 1 = remainingSteps K s := by
  obtain ⟨h1, h2, h3, h4, h5, h6⟩ := hI
  cases l with
  | producer k r =>
    obtain ⟨p, sh', p', hp, hq, rfl⟩ := step_producer h
    obtain ⟨e1, e2, e3, e4, e5, e6⟩ := producerStep_effect hq
    have hmem := mem_of_getElem? _ _ _ hp
    have t1 := total_set Producer.inCS s.producers k p p' hp
    have t2 := total_set Producer.owesFilled s.producers k p p' hp
    have t3 := total_set Producer.holdsEmpty s.producers k p p' hp
    have t4 := total_set Producer.pushes s.producers k p p' hp
    have t5 := total_set (Producer.remaining K) s.producers k p p' hp
    have e6' := e6 (h5 p hmem)
    refine ⟨⟨?_, ?_, ?_, ?_, ?_, h6⟩, ?_⟩
    · simp only [inCriticalSection] at h1 ⊢
      omega
    · simp only
      omega
    · simp only
      omega
    · simp only
      omega
    · intro q hq'
      rcases List.mem_or_eq_of_mem_set hq' with hq' | rfl
      · exact h5 q hq'
      · exact e5 (h5 p hmem)
    · simp only [remainingSteps]
      omega
  | consumer k =>
    obtain ⟨c, sh', c', hp, hq, rfl⟩ := step_consumer h
    obtain ⟨e1, e2, e3, e4, e5, e6⟩ := consumerStep_effect hq
    have hmem := mem_of_getElem? _ _ _ hp
    have t1 := total_set Consumer.inCS s.consumers k c c' hp
    have t2 := total_set Consumer.holdsFilled s.consumers k c c' hp
    have t3 := total_set Consumer.owesEmpty s.consumers k c c' hp
    have t4 := total_set Consumer.pops s.consumers k c c' hp
    have t5 := total_set (Consumer.remaining K) s.consumers k c c' hp
    have e6' := e6 (h6 c hmem)
    refine ⟨⟨?_, ?_, ?_, ?_, h5, ?_⟩, ?_⟩
    · simp only [inCriticalSection] at h1 ⊢
      omega
    · simp only
      omega
    · simp only
      omega
    · simp only
      omega
    · intro q hq'
      rcases List.mem_or_eq_of_mem_set hq' with hq' | rfl
      · exact h6 q hq'
      · exact e5 (h6 c hmem)
    · simp only [remainingSteps]
      omega

/-! ## Executions -/

theorem run_cons {K : Nat} {s s' : State} {l : Label} {ls : List Label} {evs : List Event}
    (h : run K s (l :: ls) = some (s', evs)) :
    ∃ s1 e1 e2, step K s l = some (s1, e1) ∧ run K s1 ls = some (s', e2) ∧ evs = e1 ++ e2 := by
  cases h1 : step K s l with
  | none => simp [run, h1] at h
  | some t =>
    obtain ⟨s1, e1⟩ := t
    cases h2 : run K s1 ls with
    | none => simp [run, h1, h2] at h
    | some u =>
      obtain ⟨s2, e2⟩ := u
      simp [run, h1, h2] at h
      obtain ⟨rfl, rfl⟩ := h
      exact ⟨s1, e1, e2, rfl, h2, rfl⟩

theorem run_inv {K : Nat} {s s' : State} {ls : List Label} {evs : List Event}
    (hI : Inv K s) (h : run K s ls = some (s', evs)) :
    Inv K s' ∧ remainingSteps K s' + ls.length = remainingSteps K s := by
  induction ls generalizing s evs with
  | nil =>
    simp [run] at h
    obtain ⟨rfl, rfl⟩ := h
    exact ⟨hI, rfl⟩
  | cons l ls ih =>
    obtain ⟨s1, e1, e2, h1, h2, rfl⟩ := run_cons h
    obtain ⟨hI1, hm1⟩ := step_inv hI h1
    obtain ⟨hI2, hm2⟩ := ih hI1 h2
    refine ⟨hI2, ?_⟩
    simp only [List.length_cons]
    omega

theorem initState_inv (K N M : Nat) : Inv K (initState N M) := by
  have hp : ∀ p ∈ (initState N M).producers, p = { pc := .loopTest, i := 0, item := 0 } :=
    fun p hp => List.eq_of_mem_replicate hp
  have hc : ∀ c ∈ (initState N M).consumers, c = { pc := .loopTest, i := 0, item := 0 } :=
    fun c hc => List.eq_of_mem_replicate hc
  have z1 := total_eq_zero Producer.inCS _ (fun p h => by rw [hp p h]; rfl)
  have z2 := total_eq_zero Producer.owesFilled _ (fun p h => by rw [hp p h]; rfl)
  have z3 := total_eq_zero Producer.holdsEmpty _ (fun p h => by rw [hp p h]; rfl)
  have z4 := total_eq_zero Producer.pushes _ (fun p h => by rw [hp p h]; rfl)
  have y1 := total_eq_zero Consumer.inCS _ (fun c h => by rw [hc c h]; rfl)
  have y2 := total_eq_zero Consumer.holdsFilled _ (fun c h => by rw [hc c h]; rfl)
  have y3 := total_eq_zero Consumer.owesEmpty _ (fun c h => by rw [hc c h]; rfl)
  have y4 := total_eq_zero Consumer.pops _ (fun c h => by rw [hc c h]; rfl)
  refine ⟨?_, ?_, ?_, ?_, ?_, ?_⟩
  · simp only [inCriticalSection, z1, y1]
    rfl
  · rw [z2, y2]
    rfl
  · rw [z3, y3]
    rfl
  · rw [z4, y4]
    rfl
  · intro p h
    rw [hp p h]
    simp [Producer.wf]
  · intro c h
    rw [hc c h]
    simp [Consumer.wf]

theorem reachable_inv {K N M : Nat} {s : State} (h : Reachable K (initState N M) s) :
    Inv K s := by
  obtain ⟨ls, evs, hr⟩ := h
  exact (run_inv (initState_inv K N M) hr).1

theorem Inv.count_nonneg {K : Nat} {s : State} (hI : Inv K s) : 0 ≤ s.sh.count := by
  have := hI.filled_eq
  omega

theorem Inv.count_le {K : Nat} {s : State} (hI : Inv K s) : s.sh.count ≤ (BUFFER_SIZE : Int) := by
  have := hI.empty_eq
  omega

theorem Inv.write_bound {K : Nat} {s : State} (hI : Inv K s) (p : Producer)
    (hp : p ∈ s.producers) (hpc : p.pc = .write) : s.sh.count < (BUFFER_SIZE : Int) := by
  have h1 := hI.empty_eq
  have h2 := le_total Producer.holdsEmpty s.producers p hp
  have h3 : p.holdsEmpty = 1 := by simp [Producer.holdsEmpty, hpc]
  omega

theorem Inv.read_bound {K : Nat} {s : State} (hI : Inv K s) (c : Consumer)
    (hc : c ∈ s.consumers) (hpc : c.pc = .read) : 0 < s.sh.count := by
  have h1 := hI.filled_eq
  have h2 := le_total Consumer.holdsFilled s.consumers c hc
  have h3 : c.holdsFilled = 1 := by simp [Consumer.holdsFilled, hpc]
  omega

theorem afterFirstWrite_run :
    run LEVEL_B_ITEMS levelB_init firstWrite
      = some (afterFirstWrite, [Event.produced 1 42]) := by
  rfl

theorem beforeFirstWrite_run :
    run LEVEL_B_ITEMS levelB_init [.producer 0 142, .producer 0 0, .producer 0 0]
      = some (beforeFirstWrite, []) := by
  rfl

theorem afterWaitEmpty_run :
    run LEVEL_B_ITEMS levelB_init [.producer 0 142, .producer 0 0] = some (afterWaitEmpty, []) := by
  rfl

theorem producerStep_produced {K id r : Nat} {sh sh' : Shared} {p p' : Producer}
    {evs : List Event} (h : producerStep K id r sh p = some (sh', p', evs))
    (w : Nat) (x : Int) (hx : Event.produced w x ∈ evs) :
    p.pc = .write ∧ x = p.item ∧ sh' = push sh x := by
  obtain ⟨pc, i, item⟩ := p
  cases pc
  case loopTest =>
    simp only [producerStep] at h
    split at h <;> simp at h <;> obtain ⟨rfl, rfl, rfl⟩ := h <;> simp at hx
  case waitEmpty =>
    by_cases hv : 0 < sh.empty_slots <;> simp [producerStep, sem_wait, hv] at h
    obtain ⟨rfl, rfl, rfl⟩ := h
    simp at hx
  case waitMutex =>
    by_cases hv : 0 < sh.mutex <;> simp [producerStep, sem_wait, hv] at h
    obtain ⟨rfl, rfl, rfl⟩ := h
    simp at hx
  case done => simp [producerStep] at h
  all_goals
    simp [producerStep, sem_post] at h
    obtain ⟨rfl, rfl, rfl⟩ := h
    simp at hx
  obtain ⟨rfl, rfl⟩ := hx
  exact ⟨rfl, rfl, rfl⟩

theorem consumerStep_consumed {K id : Nat} {sh sh' : Shared} {c c' : Consumer}
    {evs : List Event} (h : consumerStep K id sh c = some (sh', c', evs))
    (w : Nat) (x : Int) (hx : Event.consumed w x ∈ evs) :
    c.pc = .read ∧ x = (pop sh).1 ∧ sh' = (pop sh).2 := by
  obtain ⟨pc, i, item⟩ := c
  cases pc
  case loopTest =>
    simp only [consumerStep] at h
    split at h <;> simp at h <;> obtain ⟨rfl, rfl, rfl⟩ := h <;> simp at hx
  case waitFilled =>
    by_cases hv : 0 < sh.filled_slots <;> simp [consumerStep, sem_wait, hv] at h
    obtain ⟨rfl, rfl, rfl⟩ := h
    simp at hx
  case waitMutex =>
    by_cases hv : 0 < sh.mutex <;> simp [consumerStep, sem_wait, hv] at h
    obtain ⟨rfl, rfl, rfl⟩ := h
    simp at hx
  case done => simp [consumerStep] at h
  all_goals
    simp [consumerStep, sem_post] at h
    obtain ⟨rfl, rfl, rfl⟩ := h
    simp at hx
  obtain ⟨rfl, rfl⟩ := hx
  exact ⟨rfl, rfl, rfl⟩

theorem producerStep_not_consumed {K id r : Nat} {sh sh' : Shared} {p p' : Producer}
    {evs : List Event} (h : producerStep K id r sh p = some (sh', p', evs))
    (w : Nat) (x : Int) : Event.consumed w x ∉ evs := by
  obtain ⟨pc, i, item⟩ := p
  cases pc
  case loopTest =>
    simp only [producerStep] at h
    split at h <;> simp at h <;> obtain ⟨rfl, rfl, rfl⟩ := h <;> simp
  case waitEmpty =>
    by_cases hv : 0 < sh.empty_slots <;> simp [producerStep, sem_wait, hv] at h
    obtain ⟨rfl, rfl, rfl⟩ := h
    simp
  case waitMutex =>
    by_cases hv : 0 < sh.mutex <;> simp [producerStep, sem_wait, hv] at h
    obtain ⟨rfl, rfl, rfl⟩ := h
    simp
  case done => simp [producerStep] at h
  all_goals
    simp [producerStep, sem_post] at h
    obtain ⟨rfl, rfl, rfl⟩ := h
    simp

theorem consumerStep_not_produced {K id : Nat} {sh sh' : Shared} {c c' : Consumer}
    {evs : List Event} (h : consumerStep K id sh c = some (sh', c', evs))
    (w : Nat) (x : Int) : Event.produced w x ∉ evs := by
  obtain ⟨pc, i, item⟩ := c
  cases pc
  case loopTest =>
    simp only [consumerStep] at h
    split at h <;> simp at h <;> obtain ⟨rfl, rfl, rfl⟩ := h <;> simp
  case waitFilled =>
    by_cases hv : 0 < sh.filled_slots <;> simp [consumerStep, sem_wait, hv] at h
    obtain ⟨rfl, rfl, rfl⟩ := h
    simp
  case waitMutex =>
    by_cases hv : 0 < sh.mutex <;> simp [consumerStep, sem_wait, hv] at h
    obtain ⟨rfl, rfl, rfl⟩ := h
    simp
  case done => simp [consumerStep] at h
  all_goals
    simp [consumerStep, sem_post] at h
    obtain ⟨rfl, rfl, rfl⟩ := h
    simp

theorem applyOps_pending (ops : List BufferOp) (sh : Shared) (h0 : 0 ≤ sh.count)
    (hc : inContract sh.count.toNat ops = true) :
    contents (applyOps sh ops) = pending (contents sh) ops ∧ 0 ≤ (applyOps sh ops).count := by
  induction ops generalizing sh with
  | nil => exact ⟨rfl, h0⟩
  | cons op ops ih =>
    cases op with
    | push x =>
      simp only [inContract, Bool.and_eq_true, decide_eq_true_eq] at hc
      have e : (push sh x).count.toNat = sh.count.toNat + 1 := by
        simp only [push]
        omega
      have := ih (push sh x) (by simp only [push]; omega) (by rw [e]; exact hc.2)
      simpa [applyOps, pending, contents_push sh x h0] using this
    | pop =>
      simp only [inContract, Bool.and_eq_true, decide_eq_true_eq] at hc
      have h1 : 1 ≤ sh.count := by omega
      have e : (pop sh).2.count.toNat = sh.count.toNat - 1 := by
        simp only [pop]
        omega
      have := ih (pop sh).2 (by simp only [pop]; omega) (by rw [e]; exact hc.2)
      have hd : (contents sh).dropLast = contents (pop sh).2 := by
        rw [contents_pop sh h1]
        simp
      simpa [applyOps, pending, hd] using this

theorem contents_length (sh : Shared) : (contents sh).length = sh.count.toNat := by
  simp [contents]


/-! ## Event traces -/

theorem producedItems_append (e1 e2 : List Event) :
    producedItems (e1 ++ e2) = producedItems e1 ++ producedItems e2 := by
  induction e1 with
  | nil => rfl
  | cons e es ih => cases e <;> simp [producedItems, ih]

theorem consumedItems_append (e1 e2 : List Event) :
    consumedItems (e1 ++ e2) = consumedItems e1 ++ consumedItems e2 := by
  induction e1 with
  | nil => rfl
  | cons e es ih => cases e <;> simp [consumedItems, ih]

theorem lifoReplay_append (e1 e2 : List Event) (st : List Int) :
    lifoReplay st (e1 ++ e2) = (lifoReplay st e1).bind (fun st1 => lifoReplay st1 e2) := by
  induction e1 generalizing st with
  | nil => rfl
  | cons e es ih =>
    cases e with
    | produced w x => simp [lifoReplay, ih]
    | signaledFilled w => simp [lifoReplay, ih]
    | consumed w x =>
      by_cases hl : st.getLast? = some x <;> simp [lifoReplay, hl, ih]
    | signaledEmpty w => simp [lifoReplay, ih]

theorem producerStep_trace {K id r : Nat} {sh sh' : Shared} {p p' : Producer}
    {evs : List Event} (h : producerStep K id r sh p = some (sh', p', evs)) :
    (producedItems evs).length + p.pushes = p'.pushes ∧ consumedItems evs = [] ∧
    (0 ≤ sh.count → lifoReplay (contents sh) evs = some (contents sh')) := by
  obtain ⟨pc, i, item⟩ := p
  cases pc
  case loopTest =>
    simp only [producerStep] at h
    split at h <;> simp at h <;> obtain ⟨rfl, rfl, rfl⟩ := h <;>
      simp [producedItems, consumedItems, lifoReplay, Producer.pushes]
  case waitEmpty =>
    by_cases hv : 0 < sh.empty_slots <;> simp [producerStep, sem_wait, hv] at h
    obtain ⟨rfl, rfl, rfl⟩ := h
    simp [producedItems, consumedItems, lifoReplay, Producer.pushes, contents]
  case waitMutex =>
    by_cases hv : 0 < sh.mutex <;> simp [producerStep, sem_wait, hv] at h
    obtain ⟨rfl, rfl, rfl⟩ := h
    simp [producedItems, consumedItems, lifoReplay, Producer.pushes, contents]
  case done => simp [producerStep] at h
  case write =>
    simp [producerStep] at h
    obtain ⟨rfl, rfl, rfl⟩ := h
    refine ⟨by simp [producedItems, Producer.pushes]; omega, rfl, fun h0 => ?_⟩
    simp [lifoReplay, contents_push sh item h0]
  all_goals
    simp [producerStep, sem_post] at h
    obtain ⟨rfl, rfl, rfl⟩ := h
    simp [producedItems, consumedItems, lifoReplay, Producer.pushes, contents]

theorem consumerStep_trace {K id : Nat} {sh sh' : Shared} {c c' : Consumer}
    {evs : List Event} (h : consumerStep K id sh c = some (sh', c', evs)) :
    (consumedItems evs).length + c.pops = c'.pops ∧ producedItems evs = [] ∧
    ((c.pc = .read → 1 ≤ sh.count) → lifoReplay (contents sh) evs = some (contents sh')) := by
  obtain ⟨pc, i, item⟩ := c
  cases pc
  case loopTest =>
    simp only [consumerStep] at h
    split at h <;> simp at h <;> obtain ⟨rfl, rfl, rfl⟩ := h <;>
      simp [producedItems, consumedItems, lifoReplay, Consumer.pops]
  case waitFilled =>
    by_cases hv : 0 < sh.filled_slots <;> simp [consumerStep, sem_wait, hv] at h
    obtain ⟨rfl, rfl, rfl⟩ := h
    simp [producedItems, consumedItems, lifoReplay, Consumer.pops, contents]
  case waitMutex =>
    by_cases hv : 0 < sh.mutex <;> simp [consumerStep, sem_wait, hv] at h
    obtain ⟨rfl, rfl, rfl⟩ := h
    simp [producedItems, consumedItems, lifoReplay, Consumer.pops, contents]
  case done => simp [consumerStep] at h
  case read =>
    simp [consumerStep] at h
    obtain ⟨rfl, rfl, rfl⟩ := h
    refine ⟨by simp [consumedItems, Consumer.pops]; omega, rfl, fun h1 => ?_⟩
    have h1' := h1 rfl
    rw [contents_pop sh h1']
    simp [lifoReplay]
  all_goals
    simp [consumerStep, sem_post] at h
    obtain ⟨rfl, rfl, rfl⟩ := h
    simp [producedItems, consumedItems, lifoReplay, Consumer.pops, contents]

theorem step_trace {K : Nat} {s s' : State} {l : Label} {evs : List Event}
    (hI : Inv K s) (h : step K s l = some (s', evs)) :
    (producedItems evs).length + total Producer.pushes s.producers
      = total Producer.pushes s'.producers ∧
    (consumedItems evs).length + total Consumer.pops s.consumers
      = total Consumer.pops s'.consumers ∧
    lifoReplay (contents s.sh) evs = some (contents s'.sh) ∧
    s'.producers.length = s.producers.length ∧ s'.consumers.length = s.consumers.length := by
  cases l with
  | producer k r =>
    obtain ⟨p, sh', p', hp, hq, rfl⟩ := step_producer h
    obtain ⟨e1, e2, e3⟩ := producerStep_trace hq
    have t := total_set Producer.pushes s.producers k p p' hp
    refine ⟨?_, ?_, e3 hI.count_nonneg, by simp, rfl⟩
    · simp only
      omega
    · simp [e2]
  | consumer k =>
    obtain ⟨c, sh', c', hp, hq, rfl⟩ := step_consumer h
    obtain ⟨e1, e2, e3⟩ := consumerStep_trace hq
    have t := total_set Consumer.pops s.consumers k c c' hp
    have hb : c.pc = .read → 1 ≤ s.sh.count := fun hpc => by
      have := hI.read_bound c (mem_of_getElem? _ _ _ hp) hpc
      omega
    refine ⟨?_, ?_, e3 hb, rfl, by simp⟩
    · simp [e2]
    · simp only
      omega

theorem run_trace {K : Nat} {s s' : State} {ls : List Label} {evs : List Event}
    (hI : Inv K s) (h : run K s ls = some (s', evs)) :
    (producedItems evs).length + total Producer.pushes s.producers
      = total Producer.pushes s'.producers ∧
    (consumedItems evs).length + total Consumer.pops s.consumers
      = total Consumer.pops s'.consumers ∧
    lifoReplay (contents s.sh) evs = some (contents s'.sh) ∧
    s'.producers.length = s.producers.length ∧ s'.consumers.length = s.consumers.length := by
  induction ls generalizing s evs with
  | nil =>
    simp [run] at h
    obtain ⟨rfl, rfl⟩ := h
    simp [producedItems, consumedItems, lifoReplay]
  | cons l ls ih =>
    obtain ⟨s1, e1, e2, h1, h2, rfl⟩ := run_cons h
    obtain ⟨a1, a2, a3, a4, a5⟩ := step_trace hI h1
    obtain ⟨b1, b2, b3, b4, b5⟩ := ih (step_inv hI h1).1 h2
    refine ⟨?_, ?_, ?_, by omega, by omega⟩
    · rw [producedItems_append, List.length_append]
      omega
    · rw [consumedItems_append, List.length_append]
      omega
    · rw [lifoReplay_append, a3]
      simpa using b3

theorem lifoReplay_perm (evs : List Event) (st st' : List Int)
    (h : lifoReplay st evs = some st') :
    (st ++ producedItems evs).Perm (consumedItems evs ++ st') := by
  induction evs generalizing st with
  | nil =>
    simp [lifoReplay] at h
    subst h
    simp [producedItems, consumedItems]
  | cons e es ih =>
    cases e with
    | produced w x =>
      simp only [lifoReplay] at h
      simpa [producedItems, consumedItems] using ih _ h
    | signaledFilled w =>
      simp only [lifoReplay] at h
      simpa [producedItems, consumedItems] using ih _ h
    | consumed w x =>
      by_cases hl : st.getLast? = some x
      · simp only [lifoReplay, hl, if_true] at h
        have := ih _ h
        have hst : st = st.dropLast ++ [x] := by
          have hne : st ≠ [] := by
            intro hnil
            simp [hnil] at hl
          rw [List.getLast?_eq_getLast _ hne] at hl
          have hx : st.getLast hne = x := by simpa using hl
          rw [← hx]
          exact (List.dropLast_append_getLast hne).symm
        simp only [producedItems, consumedItems]
        conv_lhs => rw [hst]
        simp only [List.append_assoc, List.singleton_append, List.cons_append]
        exact List.perm_middle.trans (List.Perm.cons x this)
      · simp [lifoReplay, hl] at h
    | signaledEmpty w =>
      simp only [lifoReplay] at h
      simpa [producedItems, consumedItems] using ih _ h

theorem allDone_totals {K : Nat} {s : State} (hI : Inv K s) (hd : allDone s) :
    total Producer.pushes s.producers = s.producers.length * K ∧
    total Consumer.pops s.consumers = s.consumers.length * K := by
  constructor
  · apply total_eq
    intro p hp
    have h1 := hd.1 p hp
    have h2 := hI.wfP p hp
    simp [Producer.wf, h1] at h2
    simp [Producer.pushes, h1, h2]
  · apply total_eq
    intro c hc
    have h1 := hd.2 c hc
    have h2 := hI.wfC c hc
    simp [Consumer.wf, h1] at h2
    simp [Consumer.pops, h1, h2]

theorem initState_totals (N M : Nat) :
    total Producer.pushes (initState N M).producers = 0 ∧
    total Consumer.pops (initState N M).consumers = 0 ∧
    (initState N M).producers.length = N ∧ (initState N M).consumers.length = M ∧
    contents (initState N M).sh = [] := by
  refine ⟨?_, ?_, by simp [initState], by simp [initState], rfl⟩
  · apply total_eq_zero
    intro p hp
    rw [List.eq_of_mem_replicate hp]
    rfl
  · apply total_eq_zero
    intro c hc
    rw [List.eq_of_mem_replicate hc]
    rfl

/-- Facts about a complete execution of a balanced system: N producers and N
consumers with loop bound K. -/
theorem complete_run {K N : Nat} {ls : List Label} {s : State} {evs : List Event}
    (hrun : run K (initState N N) ls = some (s, evs)) (hd : allDone s) :
    s.sh.count = 0 ∧ (producedItems evs).length = N * K ∧ (consumedItems evs).length = N * K ∧
    lifoReplay [] evs = some [] ∧ ls.length = remainingSteps K (initState N N) := by
  have hI0 := initState_inv K N N
  obtain ⟨hI, hm⟩ := run_inv hI0 hrun
  obtain ⟨t1, t2, t3, t4, t5⟩ := run_trace hI0 hrun
  obtain ⟨i1, i2, i3, i4, i5⟩ := initState_totals N N
  obtain ⟨d1, d2⟩ := allDone_totals hI hd
  have hc := hI.count_eq
  rw [i1, d1, t4, i3] at t1
  rw [i2, d2, t5, i4] at t2
  rw [d1, d2, t4, t5, i3, i4] at hc
  have hcount : s.sh.count = 0 := by omega
  have hcont : contents s.sh = [] := by simp [contents, hcount]
  rw [i5, hcont] at t3
  have hrem : remainingSteps K s = 0 := by
    simp only [remainingSteps]
    have r1 : total (Producer.remaining K) s.producers = 0 :=
      total_eq_zero _ _ (fun p hp => by simp [Producer.remaining, hd.1 p hp])
    have r2 : total (Consumer.remaining K) s.consumers = 0 :=
      total_eq_zero _ _ (fun c hc => by simp [Consumer.remaining, hd.2 c hc])
    omega
  exact ⟨hcount, by omega, by omega, t3, by omega⟩

theorem getD_of_isSome {α : Type} (o : Option α) (d : α) (h : o.isSome = true) :
    o = some (o.getD d) := by
  cases o with
  | none => simp at h
  | some v => rfl

theorem levelB_outcome_run :
    run LEVEL_B_ITEMS levelB_init levelB_schedule = some levelB_outcome :=
  getD_of_isSome _ _ (by decide)

theorem levelB_outcome_done : allDone levelB_outcome.1 := by
  unfold allDone
  decide

theorem levelB_outcome_items :
    producedItems levelB_outcome.2 = [1, 2, 3, 4, 5, 6, 7, 8, 9, 10] ∧
    consumedItems levelB_outcome.2 = [4, 3, 2, 1, 8, 7, 6, 5, 10, 9] := by
  decide

theorem levelA_outcome_run :
    run LEVEL_A_ITEMS levelA_init levelA_schedule = some levelA_outcome :=
  getD_of_isSome _ _ (by decide)

theorem levelA_outcome_done : allDone levelA_outcome.1 := by
  unfold allDone
  decide

theorem levelA_outcome_items :
    producedItems levelA_outcome.2 = [1, 2, 3, 4, 5, 6, 7, 8, 9, 10] ∧
    consumedItems levelA_outcome.2 = [4, 3, 2, 1, 8, 7, 6, 5, 10, 9] := by
  decide

/-! ## Order of consumption under the stack discipline -/

theorem lifoReplay_mem {evs : List Event} {st st' : List Int}
    (h : lifoReplay st evs = some st') (x : Int)
    (hx : x ∈ consumedItems evs ∨ x ∈ st') : x ∈ st ∨ x ∈ producedItems evs := by
  have hp := lifoReplay_perm evs st st' h
  have : x ∈ consumedItems evs ++ st' := List.mem_append.mpr hx
  exact List.mem_append.mp (hp.symm.subset this)

theorem filter_mem_snoc (l d : List Int) (x : Int) (hx : x ∉ l) :
    l.filter (fun a => decide (a ∈ d ++ [x])) = l.filter (fun a => decide (a ∈ d)) := by
  apply List.filter_congr
  intro a ha
  have : a ≠ x := fun e => hx (e ▸ ha)
  simp [this]

theorem lifoReplay_order (evs : List Event) (st st' : List Int)
    (h : lifoReplay st evs = some st') (hnd : (st ++ producedItems evs).Nodup) :
    st'.filter (fun a => decide (a ∈ st))
      ++ ((consumedItems evs).filter (fun a => decide (a ∈ st))).reverse = st := by
  induction evs generalizing st with
  | nil =>
    simp [lifoReplay] at h
    subst h
    simp [consumedItems]
  | cons e es ih =>
    cases e with
    | produced w x =>
      simp only [lifoReplay] at h
      simp only [producedItems] at hnd
      have hnd' : ((st ++ [x]) ++ producedItems es).Nodup := by simpa using hnd
      have hxst : x ∉ st := by
        intro hmem
        have := (List.nodup_append.mp hnd).2.2
        exact this hmem (List.mem_cons_self x _) 
      have := congrArg (List.filter (fun a => decide (a ∈ st))) (ih _ h hnd')
      simp only [List.filter_append, List.filter_reverse, List.filter_filter] at this
      have hf : ∀ l : List Int, l.filter (fun a => decide (a ∈ st) && decide (a ∈ st ++ [x]))
          = l.filter (fun a => decide (a ∈ st)) := by
        intro l
        apply List.filter_congr
        intro a _
        by_cases ha : a ∈ st <;> simp [ha]
      rw [hf, hf] at this
      simp only [consumedItems]
      rw [this]
      simp [hxst]
    | signaledFilled w =>
      simp only [lifoReplay] at h
      simp only [producedItems] at hnd
      simpa [consumedItems] using ih _ h hnd
    | consumed w x =>
      by_cases hl : st.getLast? = some x
      · simp only [lifoReplay, hl, if_true] at h
        have hst : st = st.dropLast ++ [x] := by
          have hne : st ≠ [] := by
            intro hnil
            simp [hnil] at hl
          rw [List.getLast?_eq_getLast _ hne] at hl
          have hx : st.getLast hne = x := by simpa using hl
          rw [← hx]
          exact (List.dropLast_append_getLast hne).symm
        generalize st.dropLast = d at h hst
        subst hst
        simp only [producedItems] at hnd
        have hnd1 : (d ++ ([x] ++ producedItems es)).Nodup := by simpa using hnd
        have hnd2 : (d ++ producedItems es).Nodup := by
          refine hnd1.sublist ?_
          exact List.Sublist.append_left (List.sublist_append_right _ _) d
        have hxd : x ∉ d := by
          intro hmem
          exact (List.nodup_append.mp hnd1).2.2 hmem (by simp)
        have hxp : x ∉ producedItems es := by
          intro hmem
          have := (List.nodup_append.mp hnd1).2.1
          simp at this
          exact this.1 hmem
        have hx1 : x ∉ st' := fun hm => by
          rcases lifoReplay_mem h x (Or.inr hm) with h' | h'
          · exact hxd h'
          · exact hxp h'
        have hx2 : x ∉ consumedItems es := fun hm => by
          rcases lifoReplay_mem h x (Or.inl hm) with h' | h'
          · exact hxd h'
          · exact hxp h'
        have := ih _ h hnd2
        simp only [consumedItems]
        rw [filter_mem_snoc st' d x hx1]
        rw [List.filter_cons_of_pos (by simp)]
        rw [filter_mem_snoc _ d x hx2]
        rw [List.reverse_cons, ← List.append_assoc, this]
      · simp [lifoReplay, hl] at h
    | signaledEmpty w =>
      simp only [lifoReplay] at h
      simp only [producedItems] at hnd
      simpa [consumedItems] using ih _ h hnd

theorem lifoReplay_pushes (mid : List Event) (st : List Int) (h : consumedItems mid = []) :
    lifoReplay st mid = some (st ++ producedItems mid) := by
  induction mid generalizing st with
  | nil => simp [lifoReplay, producedItems]
  | cons e es ih =>
    cases e with
    | produced w x =>
      simp only [consumedItems] at h
      simp [lifoReplay, producedItems, ih _ h]
    | signaledFilled w =>
      simp only [consumedItems] at h
      simp [lifoReplay, producedItems, ih _ h]
    | consumed w x => simp [consumedItems] at h
    | signaledEmpty w =>
      simp only [consumedItems] at h
      simp [lifoReplay, producedItems, ih _ h]

theorem lifoReplay_burst (pre mid post : List Event)
    (h : lifoReplay [] (pre ++ mid ++ post) = some []) (hmid : consumedItems mid = [])
    (hnd : (producedItems (pre ++ mid ++ post)).Nodup) :
    (consumedItems (pre ++ mid ++ post)).filter (fun a => decide (a ∈ producedItems mid))
      = (producedItems mid).reverse := by
  rw [List.append_assoc, lifoReplay_append] at h
  cases h1 : lifoReplay [] pre with
  | none => simp [h1] at h
  | some st1 =>
    rw [h1] at h
    simp only [Option.some_bind] at h
    rw [lifoReplay_append, lifoReplay_pushes mid st1 hmid] at h
    simp only [Option.some_bind] at h
    simp only [producedItems_append, consumedItems_append, hmid, List.append_nil] at hnd ⊢
    -- the stack before the burst consists of items produced before it
    have hperm := lifoReplay_perm pre [] st1 h1
    simp only [List.nil_append] at hperm
    have hsub1 : ∀ x, x ∈ st1 → x ∈ producedItems pre := fun x hx =>
      hperm.symm.subset (List.mem_append.mpr (Or.inr hx))
    have hsub2 : ∀ x, x ∈ consumedItems pre → x ∈ producedItems pre := fun x hx =>
      hperm.symm.subset (List.mem_append.mpr (Or.inl hx))
    have hdisj : ∀ x, x ∈ producedItems pre → x ∉ producedItems mid := by
      intro x hx hm
      have := (List.nodup_append.mp (List.Nodup.of_append_left hnd)).2.2
      exact this hx hm
    have hst1 : st1.Nodup := by
      have : (consumedItems pre ++ st1).Nodup :=
        hperm.nodup_iff.mp (List.Nodup.of_append_left (List.Nodup.of_append_left hnd))
      exact List.Nodup.of_append_right this
    have hnd' : (st1 ++ producedItems mid ++ producedItems post).Nodup := by
      rw [List.append_assoc] at hnd ⊢
      rw [List.nodup_append] at hnd ⊢
      refine ⟨hst1, hnd.2.1, ?_⟩
      intro x hx hx'
      exact hnd.2.2 (hsub1 x hx) hx'
    have key := lifoReplay_order post _ [] h hnd'
    simp only [List.filter_nil, List.nil_append] at key
    have key2 := congrArg (List.filter (fun a => decide (a ∈ producedItems mid))) key
    simp only [List.filter_reverse, List.filter_filter, List.filter_append] at key2
    have hf1 : (consumedItems post).filter (fun a => decide (a ∈ producedItems mid)
        && decide (a ∈ st1 ++ producedItems mid))
        = (consumedItems post).filter (fun a => decide (a ∈ producedItems mid)) := by
      apply List.filter_congr
      intro a _
      by_cases ha : a ∈ producedItems mid <;> simp [ha]
    have hf2 : st1.filter (fun a => decide (a ∈ producedItems mid)) = [] := by
      rw [List.filter_eq_nil_iff]
      intro a ha
      simpa using hdisj a (hsub1 a ha)
    have hf3 : (producedItems mid).filter (fun a => decide (a ∈ producedItems mid))
        = producedItems mid := by
      rw [List.filter_eq_self]
      intro a ha
      simpa using ha
    have hf4 : (consumedItems pre).filter (fun a => decide (a ∈ producedItems mid)) = [] := by
      rw [List.filter_eq_nil_iff]
      intro a ha
      simpa using hdisj a (hsub2 a ha)
    rw [hf1, hf2, hf3, List.nil_append] at key2
    rw [List.filter_append, hf4, List.nil_append]
    exact List.reverse_eq_iff.mp key2

/-! ## Progress -/

theorem producerStep_none {K id r : Nat} {sh : Shared} {p : Producer}
    (h : producerStep K id r sh p = none) :
    p.pc = .done ∨ (p.pc = .waitEmpty ∧ sh.empty_slots = 0) ∨
      (p.pc = .waitMutex ∧ sh.mutex = 0) := by
  obtain ⟨pc, i, item⟩ := p
  cases pc
  case loopTest =>
    simp only [producerStep] at h
    split at h <;> simp at h
  case waitEmpty =>
    by_cases hv : 0 < sh.empty_slots
    · simp [producerStep, sem_wait, hv] at h
    · exact Or.inr (Or.inl ⟨rfl, by omega⟩)
  case waitMutex =>
    by_cases hv : 0 < sh.mutex
    · simp [producerStep, sem_wait, hv] at h
    · exact Or.inr (Or.inr ⟨rfl, by omega⟩)
  case done => exact Or.inl rfl
  all_goals simp [producerStep] at h

theorem consumerStep_none {K id : Nat} {sh : Shared} {c : Consumer}
    (h : consumerStep K id sh c = none) :
    c.pc = .done ∨ (c.pc = .waitFilled ∧ sh.filled_slots = 0) ∨
      (c.pc = .waitMutex ∧ sh.mutex = 0) := by
  obtain ⟨pc, i, item⟩ := c
  cases pc
  case loopTest =>
    simp only [consumerStep] at h
    split at h <;> simp at h
  case waitFilled =>
    by_cases hv : 0 < sh.filled_slots
    · simp [consumerStep, sem_wait, hv] at h
    · exact Or.inr (Or.inl ⟨rfl, by omega⟩)
  case waitMutex =>
    by_cases hv : 0 < sh.mutex
    · simp [consumerStep, sem_wait, hv] at h
    · exact Or.inr (Or.inr ⟨rfl, by omega⟩)
  case done => exact Or.inl rfl
  all_goals simp [consumerStep] at h

theorem stuck_producer {K : Nat} {s : State} (hs : ∀ l, step K s l = none)
    (p : Producer) (hp : p ∈ s.producers) :
    p.pc = .done ∨ (p.pc = .waitEmpty ∧ s.sh.empty_slots = 0) ∨
      (p.pc = .waitMutex ∧ s.sh.mutex = 0) := by
  obtain ⟨k, hk⟩ := List.getElem?_of_mem hp
  have h := hs (.producer k 0)
  simp only [step, hk] at h
  cases hq : producerStep K (k + 1) 0 s.sh p with
  | none => exact producerStep_none hq
  | some t => simp [hq] at h

theorem stuck_consumer {K : Nat} {s : State} (hs : ∀ l, step K s l = none)
    (c : Consumer) (hc : c ∈ s.consumers) :
    c.pc = .done ∨ (c.pc = .waitFilled ∧ s.sh.filled_slots = 0) ∨
      (c.pc = .waitMutex ∧ s.sh.mutex = 0) := by
  obtain ⟨k, hk⟩ := List.getElem?_of_mem hc
  have h := hs (.consumer k)
  simp only [step, hk] at h
  cases hq : consumerStep K (k + 1) s.sh c with
  | none => exact consumerStep_none hq
  | some t => simp [hq] at h

/-- A state of a balanced system in which no worker can move is a state in
which every worker has left its loop. -/
theorem stuck_allDone {K : Nat} {s : State} (hI : Inv K s)
    (hbal : s.producers.length = s.consumers.length) (hs : ∀ l, step K s l = none) :
    allDone s := by
  have hP := stuck_producer hs
  have hC := stuck_consumer hs
  -- nobody holds the mutex
  have z1 : total Producer.inCS s.producers = 0 := total_eq_zero _ _ (fun p hp => by
    rcases hP p hp with h | h | h <;> simp [Producer.inCS, h])
  have z2 : total Consumer.inCS s.consumers = 0 := total_eq_zero _ _ (fun c hc => by
    rcases hC c hc with h | h | h <;> simp [Consumer.inCS, h])
  have hm : s.sh.mutex = 1 := by
    have := hI.mutex_eq
    simp only [inCriticalSection] at this
    omega
  have hP' : ∀ p ∈ s.producers, p.pc = .done ∨ (p.pc = .waitEmpty ∧ s.sh.empty_slots = 0) := by
    intro p hp
    rcases hP p hp with h | h | h
    · exact Or.inl h
    · exact Or.inr h
    · omega
  have hC' : ∀ c ∈ s.consumers, c.pc = .done ∨ (c.pc = .waitFilled ∧ s.sh.filled_slots = 0) := by
    intro c hc
    rcases hC c hc with h | h | h
    · exact Or.inl h
    · exact Or.inr h
    · omega
  have z3 : total Producer.owesFilled s.producers = 0 := total_eq_zero _ _ (fun p hp => by
    rcases hP' p hp with h | h <;> simp [Producer.owesFilled, h])
  have z4 : total Producer.holdsEmpty s.producers = 0 := total_eq_zero _ _ (fun p hp => by
    rcases hP' p hp with h | h <;> simp [Producer.holdsEmpty, h])
  have z5 : total Consumer.holdsFilled s.consumers = 0 := total_eq_zero _ _ (fun c hc => by
    rcases hC' c hc with h | h <;> simp [Consumer.holdsFilled, h])
  have z6 : total Consumer.owesEmpty s.consumers = 0 := total_eq_zero _ _ (fun c hc => by
    rcases hC' c hc with h | h <;> simp [Consumer.owesEmpty, h])
  have e1 := hI.filled_eq
  have e2 := hI.empty_eq
  have e3 := hI.count_eq
  rw [z3, z5] at e1
  rw [z4, z6] at e2
  have hpush_le : total Producer.pushes s.producers ≤ s.producers.length * K :=
    total_le _ _ _ (fun p hp => by
      have hw := hI.wfP p hp
      rcases hP' p hp with h | h
      · simp [Producer.wf, h] at hw
        simp [Producer.pushes, h, hw]
      · simp [Producer.wf, h.1] at hw
        simp [Producer.pushes, h.1]
        omega)
  have hpop_le : ∀ c ∈ s.consumers, c.pops ≤ K := fun c hc => by
    have hw := hI.wfC c hc
    rcases hC' c hc with h | h
    · simp [Consumer.wf, h] at hw
      simp [Consumer.pops, h, hw]
    · simp [Consumer.wf, h.1] at hw
      simp [Consumer.pops, h.1]
      omega
  have hB : (0 : Int) < (BUFFER_SIZE : Int) := by decide
  by_cases he : s.sh.empty_slots = 0
  · -- the buffer is full, so no consumer is blocked
    have hf : s.sh.filled_slots ≠ 0 := by omega
    have hCd : ∀ c ∈ s.consumers, c.pc = .done := fun c hc => by
      rcases hC' c hc with h | h
      · exact h
      · exact absurd h.2 hf
    have hpops : total Consumer.pops s.consumers = s.consumers.length * K :=
      total_eq _ _ _ (fun c hc => by
        have hw := hI.wfC c hc
        simp [Consumer.wf, hCd c hc] at hw
        simp [Consumer.pops, hCd c hc, hw])
    rw [hbal] at hpush_le
    omega
  · have hPd : ∀ p ∈ s.producers, p.pc = .done := fun p hp => by
      rcases hP' p hp with h | h
      · exact h
      · exact absurd h.2 he
    have hpush : total Producer.pushes s.producers = s.producers.length * K :=
      total_eq _ _ _ (fun p hp => by
        have hw := hI.wfP p hp
        simp [Producer.wf, hPd p hp] at hw
        simp [Producer.pushes, hPd p hp, hw])
    refine ⟨hPd, fun c hc => ?_⟩
    rcases hC' c hc with h | h
    · exact h
    · exfalso
      have hw := hI.wfC c hc
      simp [Consumer.wf, h.1] at hw
      have hlt : c.pops < K := by
        simp [Consumer.pops, h.1]
        exact hw
      have := total_lt Consumer.pops s.consumers K hpop_le c hc hlt
      rw [hbal] at hpush
      omega

theorem allDone_stuck {K : Nat} {s : State} (hd : allDone s) (l : Label) :
    step K s l = none := by
  cases l with
  | producer k r =>
    cases hp : s.producers[k]? with
    | none => simp [step, hp]
    | some p =>
      have := hd.1 p (mem_of_getElem? _ _ _ hp)
      simp [step, hp, producerStep, this]
  | consumer k =>
    cases hc : s.consumers[k]? with
    | none => simp [step, hc]
    | some c =>
      have := hd.2 c (mem_of_getElem? _ _ _ hc)
      simp [step, hc, consumerStep, this]

/-! ## Who releases a blocked worker -/

theorem producerStep_slots {K id r : Nat} {sh sh' : Shared} {p p' : Producer}
    {evs : List Event} (h : producerStep K id r sh p = some (sh', p', evs)) :
    sh'.empty_slots ≤ sh.empty_slots ∧
    (sh.filled_slots < sh'.filled_slots → p.pc = .postFilled ∧ evs = [Event.signaledFilled id]) ∧
    (p.owesFilled = 0 → p'.owesFilled ≠ 0 → ∃ x, evs = [Event.produced id x]) := by
  obtain ⟨pc, i, item⟩ := p
  cases pc
  case loopTest =>
    simp only [producerStep] at h
    split at h <;> simp at h <;> obtain ⟨rfl, rfl, rfl⟩ := h <;> simp [Producer.owesFilled]
  case waitEmpty =>
    by_cases hv : 0 < sh.empty_slots <;> simp [producerStep, sem_wait, hv] at h
    obtain ⟨rfl, rfl, rfl⟩ := h
    simp [Producer.owesFilled]
  case waitMutex =>
    by_cases hv : 0 < sh.mutex <;> simp [producerStep, sem_wait, hv] at h
    obtain ⟨rfl, rfl, rfl⟩ := h
    simp [Producer.owesFilled]
  case done => simp [producerStep] at h
  all_goals
    simp [producerStep, sem_post, push] at h
    obtain ⟨rfl, rfl, rfl⟩ := h
    simp [Producer.owesFilled]

theorem consumerStep_slots {K id : Nat} {sh sh' : Shared} {c c' : Consumer}
    {evs : List Event} (h : consumerStep K id sh c = some (sh', c', evs)) :
    sh'.filled_slots ≤ sh.filled_slots ∧
    (sh.empty_slots < sh'.empty_slots → c.pc = .postEmpty ∧ evs = [Event.signaledEmpty id]) ∧
    (c.owesEmpty = 0 → c'.owesEmpty ≠ 0 → ∃ x, evs = [Event.consumed id x]) := by
  obtain ⟨pc, i, item⟩ := c
  cases pc
  case loopTest =>
    simp only [consumerStep] at h
    split at h <;> simp at h <;> obtain ⟨rfl, rfl, rfl⟩ := h <;> simp [Consumer.owesEmpty]
  case waitFilled =>
    by_cases hv : 0 < sh.filled_slots <;> simp [consumerStep, sem_wait, hv] at h
    obtain ⟨rfl, rfl, rfl⟩ := h
    simp [Consumer.owesEmpty]
  case waitMutex =>
    by_cases hv : 0 < sh.mutex <;> simp [consumerStep, sem_wait, hv] at h
    obtain ⟨rfl, rfl, rfl⟩ := h
    simp [Consumer.owesEmpty]
  case done => simp [consumerStep] at h
  all_goals
    simp [consumerStep, sem_post, pop] at h
    obtain ⟨rfl, rfl, rfl⟩ := h
    simp [Consumer.owesEmpty]

theorem step_length {K : Nat} {s s' : State} {l : Label} {evs : List Event}
    (h : step K s l = some (s', evs)) :
    s'.producers.length = s.producers.length ∧ s'.consumers.length = s.consumers.length := by
  cases l with
  | producer k r =>
    obtain ⟨p, sh', p', hp, hq, rfl⟩ := step_producer h
    simp
  | consumer k =>
    obtain ⟨c, sh', c', hp, hq, rfl⟩ := step_consumer h
    simp

/-- A step that raises empty_slots is the `sem_post(empty_slots)` of a consumer. -/
theorem step_raises_empty {K : Nat} {s s' : State} {l : Label} {evs : List Event}
    (h : step K s l = some (s', evs)) (hlt : s.sh.empty_slots < s'.sh.empty_slots) :
    ∃ k c, s.consumers[k]? = some c ∧ c.pc = .postEmpty ∧ evs = [Event.signaledEmpty (k + 1)] := by
  cases l with
  | producer k r =>
    obtain ⟨p, sh', p', hp, hq, rfl⟩ := step_producer h
    have := (producerStep_slots hq).1
    simp only at hlt
    omega
  | consumer k =>
    obtain ⟨c, sh', c', hp, hq, rfl⟩ := step_consumer h
    obtain ⟨hpc, he⟩ := (consumerStep_slots hq).2.1 hlt
    exact ⟨k, c, hp, hpc, he⟩

/-- A step that raises filled_slots is the `sem_post(filled_slots)` of a producer. -/
theorem step_raises_filled {K : Nat} {s s' : State} {l : Label} {evs : List Event}
    (h : step K s l = some (s', evs)) (hlt : s.sh.filled_slots < s'.sh.filled_slots) :
    ∃ k p, s.producers[k]? = some p ∧ p.pc = .postFilled ∧
      evs = [Event.signaledFilled (k + 1)] := by
  cases l with
  | producer k r =>
    obtain ⟨p, sh', p', hp, hq, rfl⟩ := step_producer h
    obtain ⟨hpc, he⟩ := (producerStep_slots hq).2.1 hlt
    exact ⟨k, p, hp, hpc, he⟩
  | consumer k =>
    obtain ⟨c, sh', c', hp, hq, rfl⟩ := step_consumer h
    have := (consumerStep_slots hq).1
    simp only at hlt
    omega

/-- A step after which consumer k owes a post of empty_slots, and before which it
did not, is the read of consumer k. -/
theorem step_consumer_owes {K : Nat} {s s' : State} {l : Label} {evs : List Event}
    (h : step K s l = some (s', evs)) (k : Nat) (c c' : Consumer)
    (hc : s.consumers[k]? = some c) (hc' : s'.consumers[k]? = some c')
    (h0 : c.owesEmpty = 0) (h1 : c'.owesEmpty ≠ 0) :
    ∃ x, evs = [Event.consumed (k + 1) x] := by
  cases l with
  | producer j r =>
    obtain ⟨p, sh', p', hp, hq, rfl⟩ := step_producer h
    simp only at hc'
    rw [hc] at hc'
    cases hc'
    exact absurd h0 h1
  | consumer j =>
    obtain ⟨d, sh', d', hp, hq, rfl⟩ := step_consumer h
    simp only at hc'
    by_cases hjk : j = k
    · subst hjk
      rw [hc] at hp
      cases hp
      have hlt : j < s.consumers.length := by
        rw [List.getElem?_eq_some] at hc
        exact hc.1
      rw [List.getElem?_set_self hlt] at hc'
      cases hc'
      exact (consumerStep_slots hq).2.2 h0 h1
    · rw [List.getElem?_set_ne hjk] at hc'
      rw [hc] at hc'
      cases hc'
      exact absurd h0 h1

/-- A step after which producer k owes a post of filled_slots, and before which
it did not, is the write of producer k. -/
theorem step_producer_owes {K : Nat} {s s' : State} {l : Label} {evs : List Event}
    (h : step K s l = some (s', evs)) (k : Nat) (p p' : Producer)
    (hc : s.producers[k]? = some p) (hc' : s'.producers[k]? = some p')
    (h0 : p.owesFilled = 0) (h1 : p'.owesFilled ≠ 0) :
    ∃ x, evs = [Event.produced (k + 1) x] := by
  cases l with
  | consumer j =>
    obtain ⟨d, sh', d', hp, hq, rfl⟩ := step_consumer h
    simp only at hc'
    rw [hc] at hc'
    cases hc'
    exact absurd h0 h1
  | producer j r =>
    obtain ⟨d, sh', d', hp, hq, rfl⟩ := step_producer h
    simp only at hc'
    by_cases hjk : j = k
    · subst hjk
      rw [hc] at hp
      cases hp
      have hlt : j < s.producers.length := by
        rw [List.getElem?_eq_some] at hc
        exact hc.1
      rw [List.getElem?_set_self hlt] at hc'
      cases hc'
      exact (producerStep_slots hq).2.2 h0 h1
    · rw [List.getElem?_set_ne hjk] at hc'
      rw [hc] at hc'
      cases hc'
      exact absurd h0 h1

theorem run_length {K : Nat} {s s' : State} {ls : List Label} {evs : List Event}
    (h : run K s ls = some (s', evs)) :
    s'.producers.length = s.producers.length ∧ s'.consumers.length = s.consumers.length := by
  induction ls generalizing s evs with
  | nil =>
    simp [run] at h
    obtain ⟨rfl, rfl⟩ := h
    exact ⟨rfl, rfl⟩
  | cons l ls ih =>
    obtain ⟨s1, e1, e2, h1, h2, rfl⟩ := run_cons h
    have a := step_length h1
    have b := ih h2
    exact ⟨by omega, by omega⟩

theorem getElem?_of_length_eq {α : Type} {l l' : List α} {k : Nat} {a : α}
    (h : l[k]? = some a) (hlen : l'.length = l.length) : ∃ b, l'[k]? = some b := by
  have hk : k < l.length := by
    rw [List.getElem?_eq_some] at h
    exact h.1
  have hk' : k < l'.length := by omega
  exact ⟨l'[k], List.getElem?_eq_getElem hk'⟩

/-- Between a state in which consumer k owes no post of empty_slots and a later
state in which it is at `sem_post(empty_slots)`, consumer k has read an item. -/
theorem run_consumer_owes {K : Nat} {s s' : State} {ls : List Label} {evs : List Event}
    (h : run K s ls = some (s', evs)) (k : Nat) (c c' : Consumer)
    (hc : s.consumers[k]? = some c) (hc' : s'.consumers[k]? = some c')
    (h0 : c.owesEmpty = 0) (h1 : c'.owesEmpty ≠ 0) :
    ∃ x a b, evs = a ++ Event.consumed (k + 1) x :: b := by
  induction ls generalizing s evs c with
  | nil =>
    simp [run] at h
    obtain ⟨rfl, rfl⟩ := h
    rw [hc] at hc'
    cases hc'
    exact absurd h0 h1
  | cons l ls ih =>
    obtain ⟨s1, e1, e2, hs, hr, rfl⟩ := run_cons h
    obtain ⟨c1, hc1⟩ := getElem?_of_length_eq hc (step_length hs).2
    by_cases hz : c1.owesEmpty = 0
    · obtain ⟨x, a, b, rfl⟩ := ih hr c1 hc1 hz
      exact ⟨x, e1 ++ a, b, by simp⟩
    · obtain ⟨x, rfl⟩ := step_consumer_owes hs k c c1 hc hc1 h0 hz
      exact ⟨x, [], e2, rfl⟩

/-- Between a state in which producer k owes no post of filled_slots and a later
state in which it is at `sem_post(filled_slots)`, producer k has written an
item. -/
theorem run_producer_owes {K : Nat} {s s' : State} {ls : List Label} {evs : List Event}
    (h : run K s ls = some (s', evs)) (k : Nat) (p p' : Producer)
    (hc : s.producers[k]? = some p) (hc' : s'.producers[k]? = some p')
    (h0 : p.owesFilled = 0) (h1 : p'.owesFilled ≠ 0) :
    ∃ x a b, evs = a ++ Event.produced (k + 1) x :: b := by
  induction ls generalizing s evs p with
  | nil =>
    simp [run] at h
    obtain ⟨rfl, rfl⟩ := h
    rw [hc] at hc'
    cases hc'
    exact absurd h0 h1
  | cons l ls ih =>
    obtain ⟨s1, e1, e2, hs, hr, rfl⟩ := run_cons h
    obtain ⟨p1, hp1⟩ := getElem?_of_length_eq hc (step_length hs).1
    by_cases hz : p1.owesFilled = 0
    · obtain ⟨x, a, b, rfl⟩ := ih hr p1 hp1 hz
      exact ⟨x, e1 ++ a, b, by simp⟩
    · obtain ⟨x, rfl⟩ := step_producer_owes hs k p p1 hc hp1 h0 hz
      exact ⟨x, [], e2, rfl⟩

/-- An execution from a state with `empty_slots = 0` to a state with a positive
value passes a state in which some consumer is at `sem_post(empty_slots)` and
executes that post next. -/
theorem run_raises_empty {K : Nat} {s s' : State} {ls : List Label} {evs : List Event}
    (h : run K s ls = some (s', evs)) (h0 : s.sh.empty_slots = 0)
    (h1 : 0 < s'.sh.empty_slots) :
    ∃ ls1 s1 e1 k c e3, run K s ls1 = some (s1, e1) ∧ s1.consumers[k]? = some c ∧
      c.pc = .postEmpty ∧ evs = e1 ++ Event.signaledEmpty (k + 1) :: e3 := by
  induction ls generalizing s evs with
  | nil =>
    simp [run] at h
    obtain ⟨rfl, rfl⟩ := h
    omega
  | cons l ls ih =>
    obtain ⟨s1, e1, e2, hs, hr, rfl⟩ := run_cons h
    by_cases hz : s1.sh.empty_slots = 0
    · obtain ⟨ls1, s2, e1', k, c, e3, hr1, hc, hpc, rfl⟩ := ih hr hz
      refine ⟨l :: ls1, s2, e1 ++ e1', k, c, e3, ?_, hc, hpc, by simp⟩
      simp [run, hs, hr1]
    · obtain ⟨k, c, hc, hpc, rfl⟩ := step_raises_empty hs (by omega)
      exact ⟨[], s, [], k, c, e2, rfl, hc, hpc, rfl⟩

/-- An execution from a state with `filled_slots = 0` to a state with a positive
value passes a state in which some producer is at `sem_post(filled_slots)` and
executes that post next. -/
theorem run_raises_filled {K : Nat} {s s' : State} {ls : List Label} {evs : List Event}
    (h : run K s ls = some (s', evs)) (h0 : s.sh.filled_slots = 0)
    (h1 : 0 < s'.sh.filled_slots) :
    ∃ ls1 s1 e1 k p e3, run K s ls1 = some (s1, e1) ∧ s1.producers[k]? = some p ∧
      p.pc = .postFilled ∧ evs = e1 ++ Event.signaledFilled (k + 1) :: e3 := by
  induction ls generalizing s evs with
  | nil =>
    simp [run] at h
    obtain ⟨rfl, rfl⟩ := h
    omega
  | cons l ls ih =>
    obtain ⟨s1, e1, e2, hs, hr, rfl⟩ := run_cons h
    by_cases hz : s1.sh.filled_slots = 0
    · obtain ⟨ls1, s2, e1', k, p, e3, hr1, hc, hpc, rfl⟩ := ih hr hz
      refine ⟨l :: ls1, s2, e1 ++ e1', k, p, e3, ?_, hc, hpc, by simp⟩
      simp [run, hs, hr1]
    · obtain ⟨k, p, hc, hpc, rfl⟩ := step_raises_filled hs (by omega)
      exact ⟨[], s, [], k, p, e2, rfl, hc, hpc, rfl⟩

/-- From a state with a full buffer, empty_slots becomes positive only after
some consumer has read an item and then posted empty_slots. -/
theorem full_released_by_consumer {K : Nat} {s s' : State} {ls : List Label}
    {evs : List Event} (hI : Inv K s) (hfull : s.sh.count = (BUFFER_SIZE : Int))
    (h : run K s ls = some (s', evs)) (h1 : 0 < s'.sh.empty_slots) :
    ∃ w x a b d, evs = a ++ Event.consumed w x :: b ++ Event.signaledEmpty w :: d := by
  have e := hI.empty_eq
  have h0 : s.sh.empty_slots = 0 := by omega
  have hz : total Consumer.owesEmpty s.consumers = 0 := by omega
  obtain ⟨ls1, s1, e1, k, c, e3, hr1, hc, hpc, rfl⟩ := run_raises_empty h h0 h1
  obtain ⟨c0, hc0⟩ := getElem?_of_length_eq hc (run_length hr1).2.symm
  have hc0z : c0.owesEmpty = 0 := by
    have := le_total Consumer.owesEmpty s.consumers c0 (mem_of_getElem? _ _ _ hc0)
    omega
  have hc1 : c.owesEmpty ≠ 0 := by simp [Consumer.owesEmpty, hpc]
  obtain ⟨x, a, b, rfl⟩ := run_consumer_owes hr1 k c0 c hc0 hc hc0z hc1
  exact ⟨k + 1, x, a, b, e3, by simp⟩

/-- From a state with an empty buffer, filled_slots becomes positive only after
some producer has written an item and then posted filled_slots. -/
theorem empty_released_by_producer {K : Nat} {s s' : State} {ls : List Label}
    {evs : List Event} (hI : Inv K s) (hempty : s.sh.count = 0)
    (h : run K s ls = some (s', evs)) (h1 : 0 < s'.sh.filled_slots) :
    ∃ w x a b d, evs = a ++ Event.produced w x :: b ++ Event.signaledFilled w :: d := by
  have e := hI.filled_eq
  have h0 : s.sh.filled_slots = 0 := by omega
  have hz : total Producer.owesFilled s.producers = 0 := by omega
  obtain ⟨ls1, s1, e1, k, p, e3, hr1, hc, hpc, rfl⟩ := run_raises_filled h h0 h1
  obtain ⟨p0, hp0⟩ := getElem?_of_length_eq hc (run_length hr1).1.symm
  have hp0z : p0.owesFilled = 0 := by
    have := le_total Producer.owesFilled s.producers p0 (mem_of_getElem? _ _ _ hp0)
    omega
  have hp1 : p.owesFilled ≠ 0 := by simp [Producer.owesFilled, hpc]
  obtain ⟨x, a, b, rfl⟩ := run_producer_owes hr1 k p0 p hp0 hc hp0z hp1
  exact ⟨k + 1, x, a, b, e3, by simp⟩

theorem levelB_full_run : run LEVEL_B_ITEMS levelB_init fillSchedule = some levelB_full :=
  getD_of_isSome _ _ (by decide)

theorem step_waitEmpty_enabled {K : Nat} {s : State} {k r : Nat} {p : Producer}
    {t : State × List Event} (hp : s.producers[k]? = some p) (hpc : p.pc = .waitEmpty)
    (h : step K s (.producer k r) = some t) : 0 < s.sh.empty_slots := by
  by_cases hv : 0 < s.sh.empty_slots
  · exact hv
  · simp [step, hp, producerStep, hpc, sem_wait, hv] at h

theorem step_waitFilled_enabled {K : Nat} {s : State} {k : Nat} {c : Consumer}
    {t : State × List Event} (hc : s.consumers[k]? = some c) (hpc : c.pc = .waitFilled)
    (h : step K s (.consumer k) = some t) : 0 < s.sh.filled_slots := by
  by_cases hv : 0 < s.sh.filled_slots
  · exact hv
  · simp [step, hc, consumerStep, hpc, sem_wait, hv] at h


theorem lifoReplay_pops (pops : List Event) (st st' : List Int)
    (h : lifoReplay st pops = some st') (hp : producedItems pops = []) :
    st = st' ++ (consumedItems pops).reverse := by
  induction pops generalizing st with
  | nil =>
    simp [lifoReplay] at h
    subst h
    simp [consumedItems]
  | cons e es ih =>
    cases e with
    | produced w x => simp [producedItems] at hp
    | signaledFilled w =>
      simp only [lifoReplay] at h
      simp only [producedItems] at hp
      simpa [consumedItems] using ih _ h hp
    | consumed w x =>
      by_cases hl : st.getLast? = some x
      · simp only [lifoReplay, hl, if_true] at h
        simp only [producedItems] at hp
        have hst : st = st.dropLast ++ [x] := by
          have hne : st ≠ [] := by
            intro hnil
            simp [hnil] at hl
          rw [List.getLast?_eq_getLast _ hne] at hl
          have hx : st.getLast hne = x := by simpa using hl
          rw [← hx]
          exact (List.dropLast_append_getLast hne).symm
        have := ih _ h hp
        rw [hst, this]
        simp [consumedItems]
      · simp [lifoReplay, hl] at h
    | signaledEmpty w =>
      simp only [lifoReplay] at h
      simp only [producedItems] at hp
      simpa [consumedItems] using ih _ h hp

/-- Pops that directly follow a run of pushes return the items of the run in
reverse push order. -/
theorem lifoReplay_drain (pre mid pops post : List Event) (st' : List Int)
    (h : lifoReplay [] (pre ++ mid ++ pops ++ post) = some st')
    (hmid : consumedItems mid = []) (hpops : producedItems pops = [])
    (hlen : (consumedItems pops).length ≤ (producedItems mid).length) :
    consumedItems pops = (producedItems mid).reverse.take (consumedItems pops).length := by
  rw [List.append_assoc, List.append_assoc, lifoReplay_append] at h
  cases h1 : lifoReplay [] pre with
  | none => simp [h1] at h
  | some st1 =>
    rw [h1] at h
    simp only [Option.some_bind] at h
    rw [lifoReplay_append, lifoReplay_pushes mid st1 hmid] at h
    simp only [Option.some_bind] at h
    rw [lifoReplay_append] at h
    cases h2 : lifoReplay (st1 ++ producedItems mid) pops with
    | none => simp [h2] at h
    | some st2 =>
      have key := lifoReplay_pops pops _ st2 h2 hpops
      have key2 := congrArg List.reverse key
      simp only [List.reverse_append, List.reverse_reverse] at key2
      have key3 := congrArg (List.take (consumedItems pops).length) key2
      rw [List.take_left' rfl] at key3
      rw [List.take_append_of_le_length (by simpa using hlen)] at key3
      exact key3.symm

/-! ## Claims about the level_b.c protocol -/

/-- C1: in every state of level_b.c reachable from the initial state, under any
interleaving and any rand() values, `0 <= *count <= BUFFER_SIZE`; every producer
write `buffer[(*count)++] = item` is executed with `0 <= *count < BUFFER_SIZE`
and every consumer read `buffer[--(*count)]` with `0 < *count <= BUFFER_SIZE`, so
the buffer is never indexed out of range. -/
theorem count_within_capacity (s : State) (h : Reachable LEVEL_B_ITEMS levelB_init s) :
    (0 ≤ s.sh.count ∧ s.sh.count ≤ (BUFFER_SIZE : Int)) ∧
    (∀ l s' evs w x, step LEVEL_B_ITEMS s l = some (s', evs) → Event.produced w x ∈ evs →
      s'.sh = push s.sh x ∧ 0 ≤ s.sh.count ∧ s.sh.count < (BUFFER_SIZE : Int)) ∧
    (∀ l s' evs w x, step LEVEL_B_ITEMS s l = some (s', evs) → Event.consumed w x ∈ evs →
      (x, s'.sh) = pop s.sh ∧ 0 ≤ s.sh.count - 1 ∧ s.sh.count - 1 < (BUFFER_SIZE : Int)) := by
  have hI : Inv LEVEL_B_ITEMS s := reachable_inv h
  refine ⟨⟨hI.count_nonneg, hI.count_le⟩, ?_, ?_⟩
  · intro l s' evs w x hs hx
    cases l with
    | producer k r =>
      obtain ⟨p, sh', p', hp, hq, rfl⟩ := step_producer hs
      obtain ⟨hpc, _, rfl⟩ := producerStep_produced hq w x hx
      exact ⟨rfl, hI.count_nonneg, hI.write_bound p (mem_of_getElem? _ _ _ hp) hpc⟩
    | consumer k =>
      obtain ⟨c, sh', c', hp, hq, rfl⟩ := step_consumer hs
      exact absurd hx (consumerStep_not_produced hq w x)
  · intro l s' evs w x hs hx
    cases l with
    | producer k r =>
      obtain ⟨p, sh', p', hp, hq, rfl⟩ := step_producer hs
      exact absurd hx (producerStep_not_consumed hq w x)
    | consumer k =>
      obtain ⟨c, sh', c', hp, hq, rfl⟩ := step_consumer hs
      obtain ⟨hpc, rfl, rfl⟩ := consumerStep_consumed hq w x hx
      have h1 := hI.read_bound c (mem_of_getElem? _ _ _ hp) hpc
      have h2 := hI.count_le
      exact ⟨rfl, by omega, by omega⟩

/-- Witness of C1 at the state after the first producer write. -/
theorem count_within_capacity_witness :
    Reachable LEVEL_B_ITEMS levelB_init afterFirstWrite ∧
    (0 ≤ afterFirstWrite.sh.count ∧ afterFirstWrite.sh.count ≤ (BUFFER_SIZE : Int)) :=
  ⟨⟨firstWrite, _, afterFirstWrite_run⟩,
   (count_within_capacity afterFirstWrite ⟨firstWrite, _, afterFirstWrite_run⟩).1⟩

/-- C2: in every reachable state of level_b.c at most one worker is between its
`sem_wait(mutex)` and its `sem_post(mutex)`. -/
theorem mutual_exclusion (s : State) (h : Reachable LEVEL_B_ITEMS levelB_init s) :
    inCriticalSection s ≤ 1 := by
  have := (reachable_inv h).mutex_eq
  omega

/-- Witness of C2 at the state after the first producer write, where producer 1
holds the mutex. -/
theorem mutual_exclusion_witness :
    Reachable LEVEL_B_ITEMS levelB_init afterFirstWrite ∧ inCriticalSection afterFirstWrite ≤ 1 :=
  ⟨⟨firstWrite, _, afterFirstWrite_run⟩,
   mutual_exclusion afterFirstWrite ⟨firstWrite, _, afterFirstWrite_run⟩⟩

/-- C8 as stated fails: after producer 1 has executed `sem_wait(empty_slots)`
no worker is between `sem_wait(mutex)` and `sem_post(mutex)`, yet empty_slots
plus filled_slots is 3, not BUFFER_SIZE. -/
theorem slot_sum_counterexample :
    Reachable LEVEL_B_ITEMS levelB_init afterWaitEmpty ∧
    inCriticalSection afterWaitEmpty = 0 ∧
    afterWaitEmpty.sh.empty_slots + afterWaitEmpty.sh.filled_slots = 3 ∧
    afterWaitEmpty.sh.empty_slots + afterWaitEmpty.sh.filled_slots ≠ BUFFER_SIZE :=
  ⟨⟨_, _, afterWaitEmpty_run⟩, by decide, by decide, by decide⟩

/-- C8 amended: in every reachable state of level_b.c, empty_slots plus
filled_slots plus the number of workers between their first sem_wait and their
last sem_post of an iteration equals BUFFER_SIZE; in particular the two
semaphores add up to BUFFER_SIZE whenever no worker is inside that span. -/
theorem slot_sum_in_protocol (s : State) (h : Reachable LEVEL_B_ITEMS levelB_init s) :
    s.sh.empty_slots + s.sh.filled_slots + inProtocol s = BUFFER_SIZE ∧
    (inProtocol s = 0 → s.sh.empty_slots + s.sh.filled_slots = BUFFER_SIZE) := by
  have hI := reachable_inv h
  have h1 := hI.filled_eq
  have h2 := hI.empty_eq
  simp only [inProtocol]
  omega

/-- Witness of the amended C8 at the state where producer 1 holds one empty
slot. -/
theorem slot_sum_in_protocol_witness :
    Reachable LEVEL_B_ITEMS levelB_init afterWaitEmpty ∧
    afterWaitEmpty.sh.empty_slots + afterWaitEmpty.sh.filled_slots + inProtocol afterWaitEmpty
      = BUFFER_SIZE :=
  ⟨⟨_, _, afterWaitEmpty_run⟩, (slot_sum_in_protocol afterWaitEmpty ⟨_, _, afterWaitEmpty_run⟩).1⟩

/-! ## Claims about the buffer statements -/

/-- C5: the buffer statements form a stack.  At occupancy n below BUFFER_SIZE
the push stores x at index n, sets the occupancy to n + 1 and leaves slots
0 .. n-1 unchanged; a pop right after it returns x and restores occupancy n
with slots 0 .. n-1 unchanged; and after any sequence of pushes and pops that
stays within the contract the valid entries are the items pushed and not yet
popped, oldest first, and a pop returns and removes the most recently pushed
of them. -/
theorem push_pop_lifo (sh : Shared) (n : Nat) (x : Int) (hn : sh.count = (n : Int))
    (_hlt : n < BUFFER_SIZE) :
    ((push sh x).buffer n = x ∧ (push sh x).count = (n : Int) + 1 ∧
      ∀ k : Nat, k < n → (push sh x).buffer k = sh.buffer k) ∧
    ((pop (push sh x)).1 = x ∧ (pop (push sh x)).2.count = (n : Int) ∧
      ∀ k : Nat, k < n → (pop (push sh x)).2.buffer k = sh.buffer k) ∧
    (∀ ops : List BufferOp, inContract n ops = true →
      contents (applyOps sh ops) = pending (contents sh) ops ∧
      (pending (contents sh) ops ≠ [] →
        (pending (contents sh) ops).getLast? = some (pop (applyOps sh ops)).1 ∧
        contents (pop (applyOps sh ops)).2 = (pending (contents sh) ops).dropLast)) := by
  refine ⟨⟨?_, ?_, ?_⟩, ⟨?_, ?_, ?_⟩, ?_⟩
  · simp [push, hn]
  · simp [push, hn]
  · intro k hk
    have : (k : Int) ≠ (n : Int) := by omega
    simp [push, hn, this]
  · simp [push, pop]
  · simp [push, pop, hn]
  · intro k hk
    have : (k : Int) ≠ (n : Int) := by omega
    simp [push, pop, hn, this]
  · intro ops hc
    have hz : sh.count.toNat = n := by omega
    obtain ⟨h1, h2⟩ := applyOps_pending ops sh (by omega) (by rw [hz]; exact hc)
    refine ⟨h1, fun hne => ?_⟩
    have hlen := contents_length (applyOps sh ops)
    have hpos : 1 ≤ (applyOps sh ops).count := by
      rcases Nat.eq_zero_or_pos (applyOps sh ops).count.toNat with hz' | hp
      · rw [hz'] at hlen
        rw [h1] at hlen
        exact absurd (List.length_eq_zero.mp hlen) hne
      · omega
    have hp := contents_pop (applyOps sh ops) hpos
    rw [h1] at hp
    rw [hp]
    simp

/-- Witness of C5: pushing 7 on the empty buffer and popping it again. -/
theorem push_pop_lifo_witness :
    emptyBuffer.count = ((0 : Nat) : Int) ∧ 0 < BUFFER_SIZE ∧
    (pop (push emptyBuffer 7)).1 = 7 ∧ (pop (push emptyBuffer 7)).2.count = ((0 : Nat) : Int) :=
  ⟨rfl, by decide, (push_pop_lifo emptyBuffer 0 7 rfl (by decide)).2.1.1,
   (push_pop_lifo emptyBuffer 0 7 rfl (by decide)).2.1.2.1⟩

/-- C9 as stated fails: on a full buffer the push statement does not fail, it
stores the item at index BUFFER_SIZE and raises *count to 5; on an empty buffer
the pop statement lowers *count to -1. -/
theorem unchecked_ops_counterexample :
    (fullBuffer.count = (BUFFER_SIZE : Int) ∧ (push fullBuffer 7).count = 5 ∧
      (push fullBuffer 7).buffer 4 = 7 ∧ (push fullBuffer 7).count ≠ fullBuffer.count ∧
      (push fullBuffer 7).buffer 4 ≠ fullBuffer.buffer 4) ∧
    (emptyBuffer.count = 0 ∧ (pop emptyBuffer).2.count = -1 ∧
      (pop emptyBuffer).2.count ≠ emptyBuffer.count) := by
  decide

/-- C9 amended: the buffer statements contain no test of *count; a push on a
full buffer or a pop on an empty buffer is ruled out by the semaphore protocol
instead.  In every reachable state of level_b.c a producer at its push
statement finds `0 <= *count < BUFFER_SIZE`, so the push writes inside the array
and leaves `*count <= BUFFER_SIZE`, and a consumer at its pop statement finds
`0 < *count <= BUFFER_SIZE`, so the pop reads inside the array and leaves
`*count >= 0`. -/
theorem contract_kept_by_protocol (s : State) (h : Reachable LEVEL_B_ITEMS levelB_init s) :
    (∀ p ∈ s.producers, p.pc = .write →
      s.sh.count ≠ (BUFFER_SIZE : Int) ∧ 0 ≤ s.sh.count ∧ s.sh.count < (BUFFER_SIZE : Int) ∧
      (push s.sh p.item).count ≤ (BUFFER_SIZE : Int)) ∧
    (∀ c ∈ s.consumers, c.pc = .read →
      s.sh.count ≠ 0 ∧ 0 ≤ s.sh.count - 1 ∧ s.sh.count - 1 < (BUFFER_SIZE : Int) ∧
      0 ≤ (pop s.sh).2.count) := by
  have hI := reachable_inv h
  have h0 := hI.count_nonneg
  have h4 := hI.count_le
  refine ⟨?_, ?_⟩
  · intro p hp hpc
    have := hI.write_bound p hp hpc
    simp only [push]
    exact ⟨by omega, by omega, by omega, by omega⟩
  · intro c hc hpc
    have := hI.read_bound c hc hpc
    simp only [pop]
    exact ⟨by omega, by omega, by omega, by omega⟩

/-- Witness of the amended C9 at the state in which producer 1 is at its push
statement. -/
theorem contract_kept_by_protocol_witness :
    Reachable LEVEL_B_ITEMS levelB_init beforeFirstWrite ∧
    (∀ p ∈ beforeFirstWrite.producers, p.pc = .write →
      beforeFirstWrite.sh.count ≠ (BUFFER_SIZE : Int) ∧ 0 ≤ beforeFirstWrite.sh.count ∧
      beforeFirstWrite.sh.count < (BUFFER_SIZE : Int) ∧
      (push beforeFirstWrite.sh p.item).count ≤ (BUFFER_SIZE : Int)) :=
  ⟨⟨_, _, beforeFirstWrite_run⟩,
   (contract_kept_by_protocol beforeFirstWrite ⟨_, _, beforeFirstWrite_run⟩).1⟩

/-! ## Claims about main -/

/-- C10 as stated fails.  When only the second fork fails, main exits with
status 1 after producer 1 has been started: a partially started pool.  When only
the sem_open of the mutex fails, main does not abort: it forks all four workers
and goes on to wait for them; with a child that never terminates it stays in
`wait(NULL)`, and whatever the children do, all four workers have been started
and main does not exit with status 1. -/
theorem partial_pool_counterexample :
    (secondForkFails.allSucceed = false ∧
      main secondForkFails true = { ending := .exited 1, started := [.producer 1] } ∧
      main secondForkFails false = { ending := .exited 1, started := [.producer 1] }) ∧
    (mutexOpenFails.allSucceed = false ∧
      main mutexOpenFails false = { ending := .blocked, started := fullPool } ∧
      (main mutexOpenFails true).started = fullPool ∧
      (main mutexOpenFails true).ending ≠ .exited 1) := by
  decide

/-- C10 amended: main tests the result of fork only.  For every sequence of
outcomes in which some fork call fails, main aborts startup at the first failing
fork: it ends by `exit(1)`, or by the fault at `*count = 0` when the mapping of
count does not exist, and never returns 0 or waits.  When the mapping of count
exists, exactly the workers forked before the failing fork have been started;
in every case none of the workers launched after that fork is started, and if
the failing fork is the first one, no worker has been started. -/
theorem main_stops_at_failed_fork (o : Creation) (childrenExit : Bool) (k : Nat)
    (hk : k < NUM_PRODUCERS + NUM_CONSUMERS) (hfirst : ∀ j, j < k → o.fork j = true)
    (hfail : o.fork k = false) :
    ((main o childrenExit).ending = .exited 1 ∨ (main o childrenExit).ending = .faulted) ∧
    (main o childrenExit).ending ≠ .exited 0 ∧
    (o.mmapCount = true → (main o childrenExit).ending = .exited 1 ∧
      (main o childrenExit).started = fullPool.take k) ∧
    (∀ w ∈ (main o childrenExit).started, w ∈ fullPool.take k) ∧
    (k = 0 → (main o childrenExit).started = []) := by
  simp only [NUM_PRODUCERS, NUM_CONSUMERS] at hk
  cases hm : o.mmapCount
  · simp [main, hm]
  · interval_cases k
    · simp [main, hm, forkProducers, NUM_PRODUCERS, hfail, fullPool]
    · have h0 := hfirst 0 (by omega)
      simp [main, hm, forkProducers, NUM_PRODUCERS, hfail, h0, fullPool]
    · have h0 := hfirst 0 (by omega)
      have h1 := hfirst 1 (by omega)
      simp [main, hm, forkProducers, forkConsumers, NUM_PRODUCERS, NUM_CONSUMERS, hfail, h0, h1,
        fullPool]
    · have h0 := hfirst 0 (by omega)
      have h1 := hfirst 1 (by omega)
      have h2 := hfirst 2 (by omega)
      simp [main, hm, forkProducers, forkConsumers, NUM_PRODUCERS, NUM_CONSUMERS, hfail, h0, h1,
        h2, fullPool]

/-- Witness of the amended C10: when only the third fork fails, main exits with
status 1 and exactly the two producers have been started; when only the first
fork fails, no worker has been started. -/
theorem main_stops_at_failed_fork_witness :
    (2 < NUM_PRODUCERS + NUM_CONSUMERS ∧ (∀ j, j < 2 → thirdForkFails.fork j = true) ∧
      thirdForkFails.fork 2 = false) ∧
    ((main thirdForkFails true).ending = .exited 1 ∧
      (main thirdForkFails true).started = [.producer 1, .producer 2]) ∧
    (firstForkFails.fork 0 = false ∧ (main firstForkFails true).started = []) :=
  ⟨⟨by decide, fun j hj => by simp only [thirdForkFails, decide_eq_true_eq]; omega, rfl⟩,
   (main_stops_at_failed_fork thirdForkFails true 2 (by decide)
     (fun j hj => by simp only [thirdForkFails, decide_eq_true_eq]; omega) rfl).2.2.1 rfl,
   rfl,
   (main_stops_at_failed_fork firstForkFails true 0 (by decide)
     (fun j hj => absurd hj (Nat.not_lt_zero j)) rfl).2.2.2.2 rfl⟩

/-! ## Claims about complete executions -/

/-- C3: in every complete execution of level_b.c, whatever the interleaving
and the rand() values, the producers have written 10 items, the consumers have
read 10 items, and the multiset of items written equals the multiset of items
read. -/
theorem no_lost_or_duplicated_items (ls : List Label) (s : State) (evs : List Event)
    (hrun : run LEVEL_B_ITEMS levelB_init ls = some (s, evs)) (hdone : allDone s) :
    (producedItems evs).length = 10 ∧ (consumedItems evs).length = 10 ∧
    (producedItems evs : Multiset Int) = (consumedItems evs : Multiset Int) := by
  obtain ⟨_, h2, h3, h4, _⟩ := complete_run hrun hdone
  refine ⟨h2, h3, ?_⟩
  have := lifoReplay_perm evs [] [] h4
  simp only [List.nil_append, List.append_nil] at this
  exact Multiset.coe_eq_coe.mpr this

/-- Witness of C3 on the execution levelB_schedule. -/
theorem no_lost_or_duplicated_items_witness :
    run LEVEL_B_ITEMS levelB_init levelB_schedule = some levelB_outcome ∧
    allDone levelB_outcome.1 ∧
    (producedItems levelB_outcome.2 : Multiset Int) = (consumedItems levelB_outcome.2 : Multiset Int) :=
  ⟨levelB_outcome_run, levelB_outcome_done,
   (no_lost_or_duplicated_items levelB_schedule levelB_outcome.1 levelB_outcome.2
     levelB_outcome_run levelB_outcome_done).2.2⟩

/-- C6: every complete execution of level_a.c ends with `*count == 0`, the
consumer has consumed exactly 10 items, and every consumed item is the most
recently produced item still in the buffer at the time of its pop: the replay
of the trace against the stack specification succeeds, yields the valid entries
of the buffer after every initial part of an execution, and ends with the empty
list.  Consequently the pops that directly follow a run of pushes return its
items in reverse push order, and when the produced values are pairwise
different (so that a value identifies an item) the items of every run of pushes
not interrupted by a pop are consumed in reverse push order. -/
theorem level_a_complete_run (ls : List Label) (s : State) (evs : List Event)
    (hrun : run LEVEL_A_ITEMS levelA_init ls = some (s, evs)) (hdone : allDone s) :
    s.sh.count = 0 ∧ (consumedItems evs).length = 10 ∧ (producedItems evs).length = 10 ∧
    lifoReplay [] evs = some [] ∧
    (∀ ls1 s1 e1, run LEVEL_A_ITEMS levelA_init ls1 = some (s1, e1) →
      lifoReplay [] e1 = some (contents s1.sh)) ∧
    (∀ pre mid pops post, evs = pre ++ mid ++ pops ++ post → consumedItems mid = [] →
      producedItems pops = [] → (consumedItems pops).length ≤ (producedItems mid).length →
      consumedItems pops = (producedItems mid).reverse.take (consumedItems pops).length) ∧
    (∀ pre mid post, evs = pre ++ mid ++ post → consumedItems mid = [] →
      (producedItems evs).Nodup →
      (consumedItems evs).filter (fun a => decide (a ∈ producedItems mid))
        = (producedItems mid).reverse) := by
  obtain ⟨h1, h2, h3, h4, _⟩ := complete_run hrun hdone
  refine ⟨h1, h3, h2, h4, ?_, ?_, ?_⟩
  · intro ls1 s1 e1 hr
    exact (run_trace (initState_inv LEVEL_A_ITEMS 1 1) hr).2.2.1
  · intro pre mid pops post he hmid hpops hlen
    subst he
    exact lifoReplay_drain pre mid pops post [] h4 hmid hpops hlen
  · intro pre mid post he hmid hnd
    subst he
    exact lifoReplay_burst pre mid post h4 hmid hnd

/-- Witness of C6 on the execution levelA_schedule. -/
theorem level_a_complete_run_witness :
    run LEVEL_A_ITEMS levelA_init levelA_schedule = some levelA_outcome ∧
    allDone levelA_outcome.1 ∧
    levelA_outcome.1.sh.count = 0 ∧ (consumedItems levelA_outcome.2).length = 10 ∧
    lifoReplay [] levelA_outcome.2 = some [] :=
  ⟨levelA_outcome_run, levelA_outcome_done,
   (level_a_complete_run levelA_schedule levelA_outcome.1 levelA_outcome.2
     levelA_outcome_run levelA_outcome_done).1,
   (level_a_complete_run levelA_schedule levelA_outcome.1 levelA_outcome.2
     levelA_outcome_run levelA_outcome_done).2.1,
   (level_a_complete_run levelA_schedule levelA_outcome.1 levelA_outcome.2
     levelA_outcome_run levelA_outcome_done).2.2.2.1⟩

/-- C4: level_b.c terminates.  No reachable state in which some worker has not
left its loop is deadlocked; every execution has at most 144 worker steps and
there is no infinite execution; and every maximal execution ends with all four
workers finished after exactly 144 steps, 10 pushes and 10 pops. -/
theorem level_b_terminates :
    (∀ s, Reachable LEVEL_B_ITEMS levelB_init s → ¬ allDone s →
      ∃ l s' evs, step LEVEL_B_ITEMS s l = some (s', evs)) ∧
    (∀ ls s evs, run LEVEL_B_ITEMS levelB_init ls = some (s, evs) → ls.length ≤ 144) ∧
    (¬ ∃ (st : Nat → State) (lab : Nat → Label), st 0 = levelB_init ∧
      ∀ n, ∃ evs, step LEVEL_B_ITEMS (st n) (lab n) = some (st (n + 1), evs)) ∧
    (∀ ls s evs, run LEVEL_B_ITEMS levelB_init ls = some (s, evs) →
      (∀ l, step LEVEL_B_ITEMS s l = none) →
      allDone s ∧ ls.length = 144 ∧
      (producedItems evs).length = 10 ∧ (consumedItems evs).length = 10) := by
  have hI0 : Inv LEVEL_B_ITEMS levelB_init := initState_inv _ _ _
  have hrem : remainingSteps LEVEL_B_ITEMS levelB_init = 144 := by decide
  have hstuck : ∀ ls s evs, run LEVEL_B_ITEMS levelB_init ls = some (s, evs) →
      (∀ l, step LEVEL_B_ITEMS s l = none) → allDone s := by
    intro ls s evs hrun hs
    have hI := (run_inv hI0 hrun).1
    obtain ⟨_, _, _, t4, t5⟩ := run_trace hI0 hrun
    have hbal : s.producers.length = s.consumers.length := by
      rw [t4, t5]
      rfl
    exact stuck_allDone hI hbal hs
  refine ⟨?_, ?_, ?_, ?_⟩
  · intro s hr hnd
    by_contra hno
    obtain ⟨ls, evs, hrun⟩ := hr
    apply hnd
    apply hstuck ls s evs hrun
    intro l
    cases hl : step LEVEL_B_ITEMS s l with
    | none => rfl
    | some t => exact absurd ⟨l, t.1, t.2, hl⟩ hno
  · intro ls s evs hrun
    have := (run_inv hI0 hrun).2
    omega
  · rintro ⟨st, lab, h0, hstep⟩
    have key : ∀ n, Inv LEVEL_B_ITEMS (st n) ∧
        remainingSteps LEVEL_B_ITEMS (st n) + n = 144 := by
      intro n
      induction n with
      | zero =>
        rw [h0]
        exact ⟨hI0, hrem⟩
      | succ n ih =>
        obtain ⟨evs, hs⟩ := hstep n
        obtain ⟨hI, hm⟩ := step_inv ih.1 hs
        exact ⟨hI, by omega⟩
    have := (key 145).2
    omega
  · intro ls s evs hrun hs
    have hd := hstuck ls s evs hrun hs
    obtain ⟨_, h2, h3, _, h5⟩ := complete_run hrun hd
    refine ⟨hd, ?_, h2, h3⟩
    rw [h5]
    exact hrem

/-- Witness of C4 on the execution levelB_schedule, which is maximal. -/
theorem level_b_terminates_witness :
    run LEVEL_B_ITEMS levelB_init levelB_schedule = some levelB_outcome ∧
    (∀ l, step LEVEL_B_ITEMS levelB_outcome.1 l = none) ∧
    allDone levelB_outcome.1 ∧ levelB_schedule.length = 144 ∧
    (producedItems levelB_outcome.2).length = 10 ∧ (consumedItems levelB_outcome.2).length = 10 :=
  ⟨levelB_outcome_run, allDone_stuck levelB_outcome_done,
   level_b_terminates.2.2.2 levelB_schedule levelB_outcome.1 levelB_outcome.2
     levelB_outcome_run (allDone_stuck levelB_outcome_done)⟩

/-! ## Claims about blocking at the buffer bounds -/

/-- C7: in every reachable state of level_b.c with `*count == BUFFER_SIZE` the
value of empty_slots is 0, a producer at `sem_wait(empty_slots)` has no step (it
stays blocked, nothing changes and nothing fails), and in any continuation its
step is enabled only after some consumer has popped an item and afterwards
executed `sem_post(empty_slots)`.  Symmetrically, with `*count == 0` the value of
filled_slots is 0, a consumer at `sem_wait(filled_slots)` has no step, and it is
enabled only after some producer has pushed an item and afterwards executed
`sem_post(filled_slots)`. -/
theorem blocked_at_boundary (s : State) (h : Reachable LEVEL_B_ITEMS levelB_init s) :
    (s.sh.count = (BUFFER_SIZE : Int) →
      s.sh.empty_slots = 0 ∧
      (∀ k p r, s.producers[k]? = some p → p.pc = .waitEmpty →
        step LEVEL_B_ITEMS s (.producer k r) = none) ∧
      (∀ ls s' evs k p r t, run LEVEL_B_ITEMS s ls = some (s', evs) →
        s'.producers[k]? = some p → p.pc = .waitEmpty →
        step LEVEL_B_ITEMS s' (.producer k r) = some t →
        ∃ w x a b d, evs = a ++ Event.consumed w x :: b ++ Event.signaledEmpty w :: d)) ∧
    (s.sh.count = 0 →
      s.sh.filled_slots = 0 ∧
      (∀ k c, s.consumers[k]? = some c → c.pc = .waitFilled →
        step LEVEL_B_ITEMS s (.consumer k) = none) ∧
      (∀ ls s' evs k c t, run LEVEL_B_ITEMS s ls = some (s', evs) →
        s'.consumers[k]? = some c → c.pc = .waitFilled →
        step LEVEL_B_ITEMS s' (.consumer k) = some t →
        ∃ w x a b d, evs = a ++ Event.produced w x :: b ++ Event.signaledFilled w :: d)) := by
  have hI := reachable_inv h
  constructor
  · intro hfull
    have e := hI.empty_eq
    have h0 : s.sh.empty_slots = 0 := by omega
    refine ⟨h0, ?_, ?_⟩
    · intro k p r hp hpc
      simp [step, hp, producerStep, hpc, sem_wait, h0]
    · intro ls s' evs k p r t hrun hp hpc hstep
      exact full_released_by_consumer hI hfull hrun (step_waitEmpty_enabled hp hpc hstep)
  · intro hempty
    have e := hI.filled_eq
    have h0 : s.sh.filled_slots = 0 := by omega
    refine ⟨h0, ?_, ?_⟩
    · intro k c hc hpc
      simp [step, hc, consumerStep, hpc, sem_wait, h0]
    · intro ls s' evs k c t hrun hc hpc hstep
      exact empty_released_by_producer hI hempty hrun (step_waitFilled_enabled hc hpc hstep)

/-- Witness of C7 at the state after fillSchedule: the buffer is full and
producer 1 is blocked at `sem_wait(empty_slots)`. -/
theorem blocked_at_boundary_witness :
    Reachable LEVEL_B_ITEMS levelB_init levelB_full.1 ∧
    levelB_full.1.sh.count = (BUFFER_SIZE : Int) ∧
    levelB_full.1.sh.empty_slots = 0 ∧
    step LEVEL_B_ITEMS levelB_full.1 (.producer 0 0) = none :=
  ⟨⟨fillSchedule, _, levelB_full_run⟩, by decide,
   ((blocked_at_boundary levelB_full.1 ⟨fillSchedule, _, levelB_full_run⟩).1 (by decide)).1,
   ((blocked_at_boundary levelB_full.1 ⟨fillSchedule, _, levelB_full_run⟩).1 (by decide)).2.1
     0 { pc := .waitEmpty, i := 2, item := 5 } 0 (by decide) rfl⟩

end AdvancedOS
